import Mathlib

/-!
Verification of the go-ethereum ledger-core specification against a shallow
embedding of the repository sources.  The trie shard cache and the
transaction-pool RPC service are embedded directly from `src/trie/shard.go`
and `src/core/transaction_pool_rpc.go`.  The chain manager itself is not part
of the provided sources (only its test file is), so its insertion pipeline is
modelled from the specification (spec.md sections 3, 4.1 to 4.3 and 6) and
checked against the behaviour pinned down by `src/core/chain_manager_test.go`.
-/

namespace GoEth

/-! ## Bloom filters and the trie shard cache (`src/trie/shard.go`) -/

/-- Abstract model of the external scalable bloom filter used by the shard
cache (the `BoomFilters` dependency of `src/trie/shard.go`): a set of bits
indexed by `Nat` together with the family of hash functions the filter
evaluates on a key.  `Add` sets the bit selected by every hash function and
`Test` checks that they are all set; this is the defining bloom-filter
behaviour, generic in the hash family carried by the filter. -/
structure BloomFilter where
  hashes : List (List Nat → Nat)
  bits : Nat → Bool

def BloomFilter.Test (f : BloomFilter) (key : List Nat) : Bool :=
  f.hashes.all fun h => f.bits (h key)

def BloomFilter.Add (f : BloomFilter) (key : List Nat) : BloomFilter :=
  { f with
    bits := fun i => if i ∈ (f.hashes.map fun h => h key) then true else f.bits i }

/-- Shard identifiers and keys are byte strings, modelled as `List Nat`. -/
abbrev ShardId := List Nat

/-- `ShardCache` from `src/trie/shard.go`: the backing database (modelled as
the filter that each shard id deserializes to, `none` when the database has no
blob for it), the in-memory cached filters (the Go `shards` map, as an
association list), and the set of shard ids whose filter was modified since
the last commit (the Go `updated` set). -/
structure ShardCache where
  db : ShardId → Option BloomFilter
  shards : List (ShardId × BloomFilter)
  updated : List ShardId

def lookupShard (l : List (ShardId × BloomFilter)) (id : ShardId) : Option BloomFilter :=
  (l.find? fun e => e.1 == id).map (·.2)

/-- Replace the filter stored under `id` (the Go code mutates the cached
filter in place through a pointer). -/
def setShard (l : List (ShardId × BloomFilter)) (id : ShardId) (f : BloomFilter) :
    List (ShardId × BloomFilter) :=
  match l with
  | [] => []
  | e :: rest => if e.1 == id then (id, f) :: rest else e :: setShard rest id f

/-- `ShardCache.Test` from `src/trie/shard.go`: if the shard's filter is
cached, test the key against it; otherwise load the filter from the database
(falling back to the freshly constructed `fresh` filter, the Go
`boom.NewDefaultScalableBloomFilter`, when the database has nothing), cache
it, and test.  The possibly grown cache is returned alongside the answer. -/
def ShardCache.Test (fresh : BloomFilter) (c : ShardCache) (shard key : List Nat) :
    ShardCache × Bool :=
  match lookupShard c.shards shard with
  | some f => (c, f.Test key)
  | none =>
    let f := (c.db shard).getD fresh
    ({ c with shards := (shard, f) :: c.shards }, f.Test key)

/-- `ShardCache.Set` from `src/trie/shard.go`: test the key's presence (which
caches the filter) and short circuit if already known; otherwise add the key
to the now surely cached filter and mark the shard dirty.  The `none` branch
of the inner match is unreachable because `Test` always caches the filter. -/
def ShardCache.Set (fresh : BloomFilter) (c : ShardCache) (shard key : List Nat) :
    ShardCache :=
  let t := ShardCache.Test fresh c shard key
  if t.2 then t.1
  else
    match lookupShard t.1.shards shard with
    | some f =>
      { t.1 with
        shards := setShard t.1.shards shard (f.Add key),
        updated := if t.1.updated.contains shard then t.1.updated else shard :: t.1.updated }
    | none => t.1

/-- `ShardCache.Commit` from `src/trie/shard.go`: the serialization loop over
the dirty filters is commented out in the source, so the only effect is
clearing the `updated` set; it always returns a nil error.  The database
writer argument is modelled as a journal of key/value writes, so that the
absence of writes is expressible as the journal being returned unchanged. -/
def ShardCache.Commit (c : ShardCache) (dbw : List (List Nat × List Nat)) :
    ShardCache × List (List Nat × List Nat) × Option String :=
  ({ c with updated := [] }, dbw, none)

/-! ## Transaction pool RPC service (`src/core/transaction_pool_rpc.go`) -/

/-- Addresses are modelled as naturals; `0` is the zero address
`common.Address{}`. -/
abbrev Address := Nat

/-- Transactions as built by `types.NewTransaction` and
`types.NewContractCreation`: `to = none` marks a contract creation. -/
structure Transaction where
  nonce : Nat
  toAddr : Option Address
  value : Nat
  gas : Nat
  gasPrice : Nat
  data : List Nat
deriving DecidableEq, Repr

/-- `defaultGas` from `src/core/transaction_pool_rpc.go`. -/
def defaultGas : Nat := 90000

/-- `defaultGasPrice` from `src/core/transaction_pool_rpc.go`. -/
def defaultGasPrice : Nat := 10000000000000

/-- `SendTxArgs` from `src/core/transaction_pool_rpc.go`; optional fields are
nil-able pointers in the source. -/
structure SendTxArgs where
  fromAddr : Address
  toAddr : Address
  gas : Option Nat
  gasPrice : Option Nat
  value : Option Nat
  data : List Nat
  nonce : Option Nat
deriving DecidableEq, Repr

/-- The collaborators `TransactionPoolService` talks to: the account manager's
signer, the pool's `Add` verdict (`some e` means the pool rejected the
transaction with error `e`), the pool's nonce oracle, the content hash, the
RLP decoder used by `SendRawTransaction`, and sender recovery `From`. -/
structure TxPoolEnv where
  sign : Address → Transaction → Except String Transaction
  addTx : Transaction → Option String
  poolNonce : Address → Nat
  hashTx : Transaction → Nat
  decodeTx : List Nat → Except String Transaction
  fromOf : Transaction → Except String Address

/-- The transaction `SendTransaction` builds from its arguments after filling
in the gas, gas price, value and nonce defaults. -/
def buildTx (env : TxPoolEnv) (args : SendTxArgs) : Transaction :=
  { nonce := args.nonce.getD (env.poolNonce args.fromAddr)
    toAddr := if args.toAddr == 0 then none else some args.toAddr
    value := args.value.getD 0
    gas := args.gas.getD defaultGas
    gasPrice := args.gasPrice.getD defaultGasPrice
    data := args.data }

/-- `TransactionPoolService.SendTransaction` from
`src/core/transaction_pool_rpc.go`: build the transaction, sign it, and
submit it to the pool.  A signing failure returns the zero hash with the
error; a pool rejection returns the zero hash with a nil error (the source
discards the `Add` error). -/
def SendTransaction (env : TxPoolEnv) (args : SendTxArgs) : Nat × Option String :=
  let tx := buildTx env args
  match env.sign args.fromAddr tx with
  | .error e => (0, some e)
  | .ok signedTx =>
    match env.addTx signedTx with
    | some _ => (0, none)
    | none => (env.hashTx signedTx, none)

/-- `TransactionPoolService.SendRawTransaction` from
`src/core/transaction_pool_rpc.go`: decode the transaction and submit it to
the pool, propagating both the decode error and the pool's `Add` error; for a
contract creation the logging path additionally recovers the sender and
propagates its error.  `none` in the first component models the empty string
result. -/
def SendRawTransaction (env : TxPoolEnv) (encodedTx : List Nat) :
    Option Nat × Option String :=
  match env.decodeTx encodedTx with
  | .error e => (none, some e)
  | .ok tx =>
    match env.addTx tx with
    | some e => (none, some e)
    | none =>
      match tx.toAddr with
      | none =>
        match env.fromOf tx with
        | .error e => (none, some e)
        | .ok _ => (some (env.hashTx tx), none)
      | some _ => (some (env.hashTx tx), none)

/-! ## Chain manager (modelled from the spec)

The chain manager source (`InsertChain`, fork choice, reorg) is not among the
provided files; only `src/core/chain_manager_test.go` is.  The definitions in
this section are therefore modelled from the specification: the data model of
spec §3, the insertion pipeline of §4.2, and the reorganization algorithm of
§4.3, with interface names from §6. -/

/-- Modelled from the spec: a block per §3 — identified by a content hash,
carrying parent hash, height, difficulty, and its transaction list
(transactions are identified by their hashes). -/
structure Block where
  hash : Nat
  parentHash : Nat
  number : Nat
  difficulty : Nat
  txs : List Nat
deriving DecidableEq, Repr

/-- Modelled from the spec: the pluggable collaborators of §6 — the
PoW/validity oracle `verify(header) -> bool` and the block processor
(its receipts are abstracted into per-transaction bookkeeping, so only
success/failure is kept). -/
structure ChainEnv where
  powVerify : Block → Bool
  process : Block → Bool

/-- Modelled from the spec: chain-manager state per §4.1 and the data model of
§3 — persisted blocks, per-hash total difficulty, the height-to-canonical-hash
index, the current head, the transaction-location index
(block hash, height, index within block), receipts keyed by transaction hash,
the transaction pool's pending set, and the future-block set. -/
structure ChainState where
  genesis : Block
  stored : List Block
  td : Nat → Option Nat
  canonical : Nat → Option Nat
  head : Block
  txLoc : Nat → Option (Nat × Nat × Nat)
  receipts : Nat → Bool
  pending : List Nat
  future : List Block

/-- `blockByHash` of spec §6. -/
def getBlock (s : ChainState) (h : Nat) : Option Block :=
  s.stored.find? fun b => b.hash == h

/-- `hasBlock` of spec §6. -/
def hasBlock (s : ChainState) (h : Nat) : Bool :=
  (getBlock s h).isSome

def parentOf (s : ChainState) (b : Block) : Option Block :=
  getBlock s b.parentHash

/-- `totalDifficulty` of spec §6. -/
def totalDifficulty (s : ChainState) (h : Nat) : Option Nat := s.td h

/-- Total difficulty with default zero, used for comparisons. -/
def tdOf (s : ChainState) (h : Nat) : Nat := (s.td h).getD 0

/-- `currentHead` of spec §6. -/
def currentHead (s : ChainState) : Block := s.head

/-- `blockByHeight` of spec §6. -/
def blockByHeight (s : ChainState) (n : Nat) : Option Block :=
  match s.canonical n with
  | some h => getBlock s h
  | none => none

/-- Modelled from the spec: the state right after genesis initialization —
TD(genesis) fixed at genesis difficulty (§3), genesis canonical at its height,
head at genesis. -/
def mkChainState (g : Block) : ChainState :=
  { genesis := g
    stored := [g]
    td := fun h => if h = g.hash then some g.difficulty else none
    canonical := fun n => if n = g.number then some g.hash else none
    head := g
    txLoc := fun _ => none
    receipts := fun _ => false
    pending := []
    future := [] }

/-- Modelled from the spec: §4.2 step 5 — persist the block and its total
difficulty TD(parent) + difficulty before any canonical-chain decision. -/
def storeBlock (s : ChainState) (b : Block) : ChainState :=
  { s with
    stored := b :: s.stored
    td := fun h => if h = b.hash then some (tdOf s b.parentHash + b.difficulty) else s.td h }

/-- The index of a transaction within a block's transaction list. -/
def txIndexIn (l : List Nat) (t : Nat) : Option Nat :=
  match l with
  | [] => none
  | u :: rest => if u = t then some 0 else (txIndexIn rest t).map (· + 1)

/-- Modelled from the spec: §4.3 step 4 and 5 for one attached block — write
its transactions' location entries (block hash, height, index within block)
and receipts, drop its transactions from pending, and point the height index
at it. -/
def attachBlock (s : ChainState) (b : Block) : ChainState :=
  { s with
    canonical := fun n => if n = b.number then some b.hash else s.canonical n
    txLoc := fun t =>
      match txIndexIn b.txs t with
      | some i => some (b.hash, b.number, i)
      | none => s.txLoc t
    receipts := fun t => if t ∈ b.txs then true else s.receipts t
    pending := s.pending.filter fun t => t ∉ b.txs }

/-- Modelled from the spec: §4.3 step 3 for one detached block — remove its
transactions' location entries and receipts and resubmit them as pending. -/
def detachBlock (s : ChainState) (b : Block) : ChainState :=
  { s with
    txLoc := fun t => if t ∈ b.txs then none else s.txLoc t
    receipts := fun t => if t ∈ b.txs then false else s.receipts t
    pending := (b.txs.filter fun t => t ∉ s.pending) ++ s.pending }

/-- Modelled from the spec: §4.3 steps 1 and 2 — walk backward from the old
head and the new block's parent in lock-step by decreasing height until both
reference the same block (the common ancestor), collecting the detached
(old-path) and attached (new-path) blocks strictly above the ancestor, each
ordered by decreasing height.  Fuel-bounded; both chains are guaranteed to
converge at or before genesis. -/
def forkAncestor (s : ChainState) : Nat → Block → Block → List Block × List Block
  | 0, _, _ => ([], [])
  | fuel + 1, oldB, newB =>
    if oldB.hash = newB.hash then ([], [])
    else if newB.number < oldB.number then
      match parentOf s oldB with
      | some p =>
        let r := forkAncestor s fuel p newB
        (oldB :: r.1, r.2)
      | none => ([oldB], [])
    else if oldB.number < newB.number then
      match parentOf s newB with
      | some p =>
        let r := forkAncestor s fuel oldB p
        (r.1, newB :: r.2)
      | none => ([], [newB])
    else
      match parentOf s oldB, parentOf s newB with
      | some po, some pn =>
        let r := forkAncestor s fuel po pn
        (oldB :: r.1, newB :: r.2)
      | _, _ => ([oldB], [newB])

/-- Modelled from the spec: the reorganization of §4.3 for a new block `b`
whose TD exceeds the current head's and whose parent is not the head —
find the common ancestor, detach the old path's index entries (resubmitting
their transactions as pending), clear the height index for the detached
heights, and attach the new path from the ancestor upward.  The new block
itself is appended by the caller (§4.2 step 6). -/
def reorg (s : ChainState) (b : Block) : ChainState :=
  match parentOf s b with
  | none => s
  | some pb =>
    let fa := forkAncestor s (s.head.number + pb.number + 1) s.head pb
    let s1 := fa.1.foldl detachBlock s
    let s2 := { s1 with
      canonical := fun n => if fa.1.any fun d => d.number == n then none else s1.canonical n }
    fa.2.reverse.foldl attachBlock s2

/-- Modelled from the spec: the error taxonomy of §4.4 — the batch-fatal
errors.  The nonce error carries the failing block's height and hash. -/
inductive InsertErr where
  | nonceErr (number : Nat) (hash : Nat)
  | processErr (number : Nat) (hash : Nat)
deriving DecidableEq, Repr

/-- Modelled from the spec: one step of the insertion pipeline, §4.2 steps
1 to 6 — known-block skip, future-block queueing, header/linkage and seal
validation (nonce error), state processing, TD persistence, and the
canonicalization decision (strictly greater TD required; fast path when the
parent is the head, reorg otherwise). -/
def insertBlock (env : ChainEnv) (s : ChainState) (b : Block) :
    Except InsertErr ChainState :=
  if hasBlock s b.hash then .ok s
  else
    match parentOf s b with
    | none => .ok { s with future := s.future ++ [b] }
    | some parent =>
      if b.number ≠ parent.number + 1 then .error (.nonceErr b.number b.hash)
      else if ¬ env.powVerify b then .error (.nonceErr b.number b.hash)
      else if ¬ env.process b then .error (.processErr b.number b.hash)
      else
        let s1 := storeBlock s b
        if tdOf s1 s1.head.hash < tdOf s1 b.hash then
          let s2 := if b.parentHash = s1.head.hash then s1 else reorg s1 b
          .ok { attachBlock s2 b with head := b }
        else .ok s1

/-- Modelled from the spec: `insertChain(blocks) -> (count, error)` of §4.2 —
blocks are processed strictly in order; a batch-fatal error stops the batch
immediately, returning the number of blocks consumed before the failing one
with no rollback of the committed prefix. -/
def insertChain (env : ChainEnv) (s : ChainState) :
    List Block → ChainState × Nat × Option InsertErr
  | [] => (s, 0, none)
  | b :: rest =>
    match insertBlock env s b with
    | .ok s1 =>
      let r := insertChain env s1 rest
      (r.1, r.2.1 + 1, r.2.2)
    | .error e => (s, 0, some e)

/-- A sequence of `insertChain` calls. -/
def runBatches (env : ChainEnv) : ChainState → List (List Block) → ChainState
  | s, [] => s
  | s, bs :: rest => runBatches env (insertChain env s bs).1 rest

/-- The ancestor of `b` at height `n`, following stored parent pointers
(fuel-bounded walk). -/
def ancestorAt (s : ChainState) : Nat → Block → Nat → Option Block
  | 0, b, n => if b.number = n then some b else none
  | fuel + 1, b, n =>
    if b.number = n then some b
    else
      match parentOf s b with
      | some p => ancestorAt s fuel p n
      | none => none

/-- The blocks on the stored parent path of `b` strictly above height `m`,
ordered by decreasing height (fuel-bounded walk). -/
def chainAbove (s : ChainState) : Nat → Block → Nat → List Block
  | 0, b, m => if b.number ≤ m then [] else [b]
  | fuel + 1, b, m =>
    if b.number ≤ m then []
    else
      b :: (match parentOf s b with
        | some p => chainAbove s fuel p m
        | none => [])

/-- `linkedFrom r B` holds when `B` is a parent-linked branch of consecutive
heights whose first block extends `r`. -/
def linkedFrom (r : Block) : List Block → Bool
  | [] => true
  | b :: rest => b.parentHash == r.hash && b.number == r.number + 1 && linkedFrom b rest

def storedHashes (s : ChainState) : List Nat := s.stored.map Block.hash

/-- `freshChain s B` holds when the blocks of `B` have pairwise distinct
hashes, none of which is already stored. -/
def freshChain (s : ChainState) : List Block → Bool
  | [] => true
  | b :: rest =>
    !(storedHashes s).contains b.hash && !(rest.map Block.hash).contains b.hash &&
      freshChain s rest

/-- Every block of the branch passes seal verification and state processing. -/
def validChain (env : ChainEnv) (B : List Block) : Bool :=
  B.all fun b => env.powVerify b && env.process b

/-- Every block of the branch has nonzero difficulty. -/
def posDiff (B : List Block) : Bool :=
  B.all fun b => b.difficulty != 0

/-- Cumulative difficulty of a branch. -/
def diffSum (B : List Block) : Nat := (B.map Block.difficulty).sum

/-- The linkage part of the chain-manager invariant: genesis is stored at
height zero, stored hashes identify blocks uniquely, and every stored
non-genesis block has a stored parent one height below. -/
structure LinkInv (s : ChainState) : Prop where
  gen_stored : s.genesis ∈ s.stored
  gen_num : s.genesis.number = 0
  hash_uniq : ∀ b ∈ s.stored, ∀ c ∈ s.stored, b.hash = c.hash → b = c
  link : ∀ b ∈ s.stored, b ≠ s.genesis →
    ∃ p, getBlock s b.parentHash = some p ∧ b.number = p.number + 1

/-- The chain-manager state invariant: the invariants of spec §3 — TD defined
by parent linkage for every stored block, the head's TD maximal among stored
blocks, and the height index being exactly the head's ancestor path. -/
structure Inv (s : ChainState) : Prop where
  toLinkInv : LinkInv s
  gen_td : s.td s.genesis.hash = some s.genesis.difficulty
  td_def : ∀ b ∈ s.stored, (s.td b.hash).isSome
  td_dom : ∀ h, (s.td h).isSome → ∃ b ∈ s.stored, b.hash = h
  td_link : ∀ b ∈ s.stored, b ≠ s.genesis →
    ∃ p, getBlock s b.parentHash = some p ∧
      s.td b.hash = some (tdOf s p.hash + b.difficulty)
  head_stored : s.head ∈ s.stored
  head_max : ∀ b ∈ s.stored, tdOf s b.hash ≤ tdOf s s.head.hash
  canon_path : ∀ n, n ≤ s.head.number →
    s.canonical n = (ancestorAt s s.head.number s.head n).map Block.hash
  canon_above : ∀ n, s.head.number < n → s.canonical n = none

/-- A deterministic environment in which every seal verifies and every block
processes; this is the test oracle configuration of
`src/core/chain_manager_test.go` (`FakePow` together with `bproc`). -/
def defEnv : ChainEnv := { powVerify := fun _ => true, process := fun _ => true }

/-- Genesis block used by the concrete witness scenarios. -/
def gBlock : Block :=
  { hash := 0, parentHash := 99, number := 0, difficulty := 1, txs := [] }

/-- Concrete transaction for the RPC witness scenario. -/
def wTx : Transaction :=
  { nonce := 0, toAddr := some 3, value := 1, gas := 2, gasPrice := 2, data := [] }

/-- Concrete collaborator environment in which the pool rejects every
transaction. -/
def wEnv : TxPoolEnv :=
  { sign := fun _ t => .ok t
    addTx := fun _ => some "rejected"
    poolNonce := fun _ => 0
    hashTx := fun _ => 7
    decodeTx := fun _ => .ok wTx
    fromOf := fun _ => .ok 1 }

/-- Concrete submission arguments for the RPC witness scenario. -/
def wArgs : SendTxArgs :=
  { fromAddr := 1, toAddr := 3, gas := none, gasPrice := none, value := none
    data := [], nonce := none }

/-- No block of `A` shares a hash with a block of `B`. -/
def hashDisjoint (A B : List Block) : Bool :=
  A.all fun x => !((B.map Block.hash).contains x.hash)

/-- Heavier branch fixture (cumulative difficulty 4) extending genesis. -/
def blkA1 : Block := { hash := 11, parentHash := 0, number := 1, difficulty := 3, txs := [101] }

def blkA2 : Block := { hash := 12, parentHash := 11, number := 2, difficulty := 1, txs := [102, 150] }

/-- Lighter branch fixture (cumulative difficulty 2) extending genesis. -/
def blkB1 : Block := { hash := 21, parentHash := 0, number := 1, difficulty := 1, txs := [201] }

def blkB2 : Block := { hash := 22, parentHash := 21, number := 2, difficulty := 1, txs := [150] }

def cA : List Block := [blkA1, blkA2]

def cB : List Block := [blkB1, blkB2]

/-- Single-block branch with the same cumulative difficulty as `cB`. -/
def blkE1 : Block := { hash := 31, parentHash := 0, number := 1, difficulty := 2, txs := [] }

/-- Blocks for the nonce-error scenario: `blkN2` fails seal verification under
`failEnv`, `blkN3` follows it. -/
def blkN2 : Block := { hash := 41, parentHash := 11, number := 2, difficulty := 1, txs := [] }

def blkN3 : Block := { hash := 42, parentHash := 41, number := 3, difficulty := 1, txs := [] }

/-- Environment whose PoW oracle rejects exactly the block with hash 41, as
`failpow` in `chain_manager_test.go` rejects one chosen block. -/
def failEnv : ChainEnv :=
  { powVerify := fun b => b.hash != 41, process := fun _ => true }

/-! ### Shard cache lemmas -/

theorem BloomFilter.test_add (f : BloomFilter) (key : List Nat) :
    (f.Add key).Test key = true := by
  simp only [Test, Add, List.all_eq_true]
  intro h hh
  rw [if_pos (List.mem_map_of_mem _ hh)]

theorem lookupShard_cons_self (rest : List (ShardId × BloomFilter)) (id : ShardId)
    (f : BloomFilter) : lookupShard ((id, f) :: rest) id = some f := by
  simp [lookupShard, List.find?]

theorem lookupShard_setShard_self (l : List (ShardId × BloomFilter)) (id : ShardId)
    (f : BloomFilter) (h : (lookupShard l id).isSome) :
    lookupShard (setShard l id f) id = some f := by
  induction l with
  | nil => simp [lookupShard] at h
  | cons e rest ih =>
    by_cases he : e.1 == id
    · simp [setShard, he, lookupShard, List.find?]
    · simp only [setShard, he, if_false]
      have h' : (lookupShard rest id).isSome := by
        simpa [lookupShard, List.find?_cons, he] using h
      simpa [lookupShard, List.find?_cons, he] using ih h'

/-- `Test` never touches the `updated` set or the backing database. -/
theorem ShardCache.test_updated (fresh : BloomFilter) (c : ShardCache)
    (shard key : List Nat) :
    (ShardCache.Test fresh c shard key).1.updated = c.updated ∧
    (ShardCache.Test fresh c shard key).1.db = c.db := by
  unfold ShardCache.Test
  cases lookupShard c.shards shard <;> simp

/-- After `Test`, the shard's filter is cached and testing it gives the same
answer `Test` reported. -/
theorem ShardCache.test_caches (fresh : BloomFilter) (c : ShardCache)
    (shard key : List Nat) :
    ∃ f, lookupShard (ShardCache.Test fresh c shard key).1.shards shard = some f ∧
      f.Test key = (ShardCache.Test fresh c shard key).2 := by
  unfold ShardCache.Test
  cases h : lookupShard c.shards shard with
  | some f => exact ⟨f, by simp [h], rfl⟩
  | none => exact ⟨_, lookupShard_cons_self _ _ _, rfl⟩

/-- `Test` only ever grows the filter cache: entries present before are
present, unchanged, afterwards. -/
theorem ShardCache.test_preserves (fresh : BloomFilter) (c : ShardCache)
    (shard key : List Nat) (id : ShardId) (f0 : BloomFilter)
    (h : lookupShard c.shards id = some f0) :
    lookupShard (ShardCache.Test fresh c shard key).1.shards id = some f0 := by
  unfold ShardCache.Test
  cases hs : lookupShard c.shards shard with
  | some f => simpa using h
  | none =>
    have hne : (shard == id) = false := by
      by_cases hid : shard = id
      · subst hid; rw [hs] at h; cases h
      · simp [hid]
    simp only [lookupShard, List.find?_cons, hne]
    exact h

/-! ### Chain manager: basic lemmas -/

theorem getBlock_mem {s : ChainState} {h : Nat} {b : Block}
    (hg : getBlock s h = some b) : b ∈ s.stored ∧ b.hash = h := by
  refine ⟨List.mem_of_find?_eq_some hg, ?_⟩
  have hp := List.find?_some hg
  simpa using hp

theorem getBlock_of_mem {s : ChainState}
    (hu : ∀ b ∈ s.stored, ∀ c ∈ s.stored, b.hash = c.hash → b = c)
    {b : Block} (hb : b ∈ s.stored) : getBlock s b.hash = some b := by
  cases hg : getBlock s b.hash with
  | none =>
    have := List.find?_eq_none.mp hg b hb
    simp at this
  | some c =>
    obtain ⟨hc, hch⟩ := getBlock_mem hg
    exact congrArg some (hu c hc b hb hch)

theorem hasBlock_of_mem {s : ChainState} {b : Block} (hb : b ∈ s.stored) :
    hasBlock s b.hash = true := by
  unfold hasBlock
  cases hg : getBlock s b.hash with
  | none =>
    have := List.find?_eq_none.mp hg b hb
    simp at this
  | some c => rfl

theorem getBlock_none_of_fresh {s : ChainState} {h : Nat}
    (hf : ¬ h ∈ storedHashes s) : getBlock s h = none := by
  cases hg : getBlock s h with
  | none => rfl
  | some c =>
    obtain ⟨hc, hch⟩ := getBlock_mem hg
    exact absurd (hch ▸ List.mem_map_of_mem Block.hash hc) hf

theorem hasBlock_false_of_fresh {s : ChainState} {h : Nat}
    (hf : ¬ h ∈ storedHashes s) : hasBlock s h = false := by
  simp [hasBlock, getBlock_none_of_fresh hf]

theorem getBlock_store (s : ChainState) (b : Block) (h : Nat) :
    getBlock (storeBlock s b) h = if b.hash = h then some b else getBlock s h := by
  by_cases hb : b.hash = h
  · simp [getBlock, storeBlock, List.find?_cons_of_pos, hb]
  · rw [if_neg hb]
    have : (b.hash == h) = false := by simp [hb]
    simp [getBlock, storeBlock, List.find?_cons_of_neg, this]

theorem storeBlock_head (s : ChainState) (b : Block) :
    (storeBlock s b).head = s.head := rfl

theorem storeBlock_genesis (s : ChainState) (b : Block) :
    (storeBlock s b).genesis = s.genesis := rfl

theorem storeBlock_stored (s : ChainState) (b : Block) :
    (storeBlock s b).stored = b :: s.stored := rfl

theorem storeBlock_canonical (s : ChainState) (b : Block) :
    (storeBlock s b).canonical = s.canonical := rfl

theorem storeBlock_txLoc (s : ChainState) (b : Block) :
    (storeBlock s b).txLoc = s.txLoc := rfl

theorem storeBlock_receipts (s : ChainState) (b : Block) :
    (storeBlock s b).receipts = s.receipts := rfl

theorem storeBlock_pending (s : ChainState) (b : Block) :
    (storeBlock s b).pending = s.pending := rfl

theorem td_store (s : ChainState) (b : Block) (h : Nat) :
    (storeBlock s b).td h =
      if h = b.hash then some (tdOf s b.parentHash + b.difficulty) else s.td h := rfl

theorem tdOf_store (s : ChainState) (b : Block) (h : Nat) :
    tdOf (storeBlock s b) h =
      if h = b.hash then tdOf s b.parentHash + b.difficulty else tdOf s h := by
  by_cases hh : h = b.hash <;> simp [tdOf, td_store, hh]

theorem attachBlock_stored (s : ChainState) (b : Block) :
    (attachBlock s b).stored = s.stored := rfl

theorem attachBlock_td (s : ChainState) (b : Block) :
    (attachBlock s b).td = s.td := rfl

theorem attachBlock_head (s : ChainState) (b : Block) :
    (attachBlock s b).head = s.head := rfl

theorem attachBlock_genesis (s : ChainState) (b : Block) :
    (attachBlock s b).genesis = s.genesis := rfl

theorem attachBlock_future (s : ChainState) (b : Block) :
    (attachBlock s b).future = s.future := rfl

theorem detachBlock_stored (s : ChainState) (b : Block) :
    (detachBlock s b).stored = s.stored := rfl

theorem detachBlock_td (s : ChainState) (b : Block) :
    (detachBlock s b).td = s.td := rfl

theorem detachBlock_head (s : ChainState) (b : Block) :
    (detachBlock s b).head = s.head := rfl

theorem detachBlock_canonical (s : ChainState) (b : Block) :
    (detachBlock s b).canonical = s.canonical := rfl

theorem detachBlock_genesis (s : ChainState) (b : Block) :
    (detachBlock s b).genesis = s.genesis := rfl

theorem foldl_detach_stored (L : List Block) (s : ChainState) :
    (L.foldl detachBlock s).stored = s.stored := by
  induction L generalizing s with
  | nil => rfl
  | cons a L ih => simp [List.foldl_cons, ih, detachBlock_stored]

theorem foldl_detach_td (L : List Block) (s : ChainState) :
    (L.foldl detachBlock s).td = s.td := by
  induction L generalizing s with
  | nil => rfl
  | cons a L ih => simp [List.foldl_cons, ih, detachBlock_td]

theorem foldl_detach_head (L : List Block) (s : ChainState) :
    (L.foldl detachBlock s).head = s.head := by
  induction L generalizing s with
  | nil => rfl
  | cons a L ih => simp [List.foldl_cons, ih, detachBlock_head]

theorem foldl_detach_canonical (L : List Block) (s : ChainState) :
    (L.foldl detachBlock s).canonical = s.canonical := by
  induction L generalizing s with
  | nil => rfl
  | cons a L ih => simp [List.foldl_cons, ih, detachBlock_canonical]

theorem foldl_detach_genesis (L : List Block) (s : ChainState) :
    (L.foldl detachBlock s).genesis = s.genesis := by
  induction L generalizing s with
  | nil => rfl
  | cons a L ih => simp [List.foldl_cons, ih, detachBlock_genesis]

theorem foldl_attach_stored (L : List Block) (s : ChainState) :
    (L.foldl attachBlock s).stored = s.stored := by
  induction L generalizing s with
  | nil => rfl
  | cons a L ih => simp [List.foldl_cons, ih, attachBlock_stored]

theorem foldl_attach_td (L : List Block) (s : ChainState) :
    (L.foldl attachBlock s).td = s.td := by
  induction L generalizing s with
  | nil => rfl
  | cons a L ih => simp [List.foldl_cons, ih, attachBlock_td]

theorem foldl_attach_head (L : List Block) (s : ChainState) :
    (L.foldl attachBlock s).head = s.head := by
  induction L generalizing s with
  | nil => rfl
  | cons a L ih => simp [List.foldl_cons, ih, attachBlock_head]

theorem foldl_attach_genesis (L : List Block) (s : ChainState) :
    (L.foldl attachBlock s).genesis = s.genesis := by
  induction L generalizing s with
  | nil => rfl
  | cons a L ih => simp [List.foldl_cons, ih, attachBlock_genesis]

theorem reorg_stored (s : ChainState) (b : Block) :
    (reorg s b).stored = s.stored := by
  unfold reorg
  cases parentOf s b with
  | none => rfl
  | some pb =>
    rw [foldl_attach_stored]
    exact foldl_detach_stored _ _

theorem reorg_td (s : ChainState) (b : Block) :
    (reorg s b).td = s.td := by
  unfold reorg
  cases parentOf s b with
  | none => rfl
  | some pb =>
    rw [foldl_attach_td]
    exact foldl_detach_td _ _

theorem reorg_head (s : ChainState) (b : Block) :
    (reorg s b).head = s.head := by
  unfold reorg
  cases parentOf s b with
  | none => rfl
  | some pb =>
    rw [foldl_attach_head]
    exact foldl_detach_head _ _

theorem reorg_genesis (s : ChainState) (b : Block) :
    (reorg s b).genesis = s.genesis := by
  unfold reorg
  cases parentOf s b with
  | none => rfl
  | some pb =>
    rw [foldl_attach_genesis]
    exact foldl_detach_genesis _ _

/-! ### Ancestor-walk lemmas -/

theorem getBlock_congr {s t : ChainState} (hst : s.stored = t.stored) (h : Nat) :
    getBlock s h = getBlock t h := by
  unfold getBlock; rw [hst]

theorem parentOf_congr {s t : ChainState} (hst : s.stored = t.stored) (b : Block) :
    parentOf s b = parentOf t b := getBlock_congr hst _

theorem ancestorAt_congr {s t : ChainState} (hst : s.stored = t.stored) :
    ∀ fuel b n, ancestorAt s fuel b n = ancestorAt t fuel b n := by
  intro fuel
  induction fuel with
  | zero => intro b n; rfl
  | succ fuel ih =>
    intro b n
    by_cases hb : b.number = n
    · simp [ancestorAt, hb]
    · simp only [ancestorAt, hb, if_false]
      rw [parentOf_congr hst]
      cases parentOf t b with
      | none => rfl
      | some p => exact ih p n

theorem anc_self {s : ChainState} {b : Block} {n : Nat} (hb : b.number = n) :
    ∀ fuel, ancestorAt s fuel b n = some b := by
  intro fuel
  cases fuel <;> simp [ancestorAt, hb]

theorem anc_step {s : ChainState} {b p : Block} {n : Nat}
    (hp : parentOf s b = some p) (hb : b.number ≠ n) (fuel : Nat) :
    ancestorAt s (fuel + 1) b n = ancestorAt s fuel p n := by
  simp [ancestorAt, hb, hp]

theorem anc_mem {s : ChainState} :
    ∀ fuel (b : Block) (n : Nat) (a : Block), b ∈ s.stored →
      ancestorAt s fuel b n = some a → a ∈ s.stored ∧ a.number = n := by
  intro fuel
  induction fuel with
  | zero =>
    intro b n a hb ha
    by_cases hn : b.number = n
    · simp only [ancestorAt, hn, if_true, Option.some.injEq] at ha
      exact ha ▸ ⟨hb, hn⟩
    · simp [ancestorAt, hn] at ha
  | succ fuel ih =>
    intro b n a hb ha
    by_cases hn : b.number = n
    · simp only [ancestorAt, hn, if_true, Option.some.injEq] at ha
      exact ha ▸ ⟨hb, hn⟩
    · simp only [ancestorAt, hn, if_false] at ha
      cases hp : parentOf s b with
      | none => rw [hp] at ha; cases ha
      | some p =>
        rw [hp] at ha
        exact ih p n a (getBlock_mem hp).1 ha

theorem num_zero_genesis {s : ChainState} (hL : LinkInv s) {b : Block}
    (hb : b ∈ s.stored) (h0 : b.number = 0) : b = s.genesis := by
  by_contra hne
  obtain ⟨p, _, hnum⟩ := hL.link b hb hne
  omega

/-- Fuel irrelevance with existence: with any fuel at least the height
difference, the ancestor walk from a stored block succeeds and does not
depend on the fuel. -/
theorem anc_norm {s : ChainState} (hL : LinkInv s) :
    ∀ d b, b ∈ s.stored → ∀ n, n ≤ b.number → b.number - n = d →
      ∀ fuel fuel2, d ≤ fuel → d ≤ fuel2 →
        ancestorAt s fuel b n = ancestorAt s fuel2 b n ∧
          ∃ a, ancestorAt s fuel b n = some a := by
  intro d
  induction d with
  | zero =>
    intro b hb n hn hd fuel fuel2 _ _
    have hbn : b.number = n := by omega
    rw [anc_self hbn, anc_self hbn]
    exact ⟨rfl, b, rfl⟩
  | succ d ih =>
    intro b hb n hn hd fuel fuel2 hf hf2
    have hbn : b.number ≠ n := by omega
    have hbg : b ≠ s.genesis := by
      intro h
      have := hL.gen_num
      rw [h] at hbn hd
      omega
    obtain ⟨p, hp, hnum⟩ := hL.link b hb hbg
    have hpmem : p ∈ s.stored := (getBlock_mem hp).1
    obtain ⟨f, rfl⟩ : ∃ f, fuel = f + 1 := ⟨fuel - 1, by omega⟩
    obtain ⟨f2, rfl⟩ : ∃ f2, fuel2 = f2 + 1 := ⟨fuel2 - 1, by omega⟩
    rw [anc_step hp hbn, anc_step hp hbn]
    exact ih p hpmem n (by omega) (by omega) f f2 (by omega) (by omega)

theorem anc_irrel {s : ChainState} (hL : LinkInv s) {b : Block} {n : Nat}
    (hb : b ∈ s.stored) (hn : n ≤ b.number) {fuel fuel2 : Nat}
    (hf : b.number - n ≤ fuel) (hf2 : b.number - n ≤ fuel2) :
    ancestorAt s fuel b n = ancestorAt s fuel2 b n :=
  (anc_norm hL (b.number - n) b hb n hn rfl fuel fuel2 hf hf2).1

theorem anc_some {s : ChainState} (hL : LinkInv s) {b : Block} {n : Nat}
    (hb : b ∈ s.stored) (hn : n ≤ b.number) {fuel : Nat}
    (hf : b.number - n ≤ fuel) :
    ∃ a, ancestorAt s fuel b n = some a :=
  (anc_norm hL (b.number - n) b hb n hn rfl fuel fuel hf hf).2

/-- Walking below an ancestor factors through it. -/
theorem anc_compose {s : ChainState} (hL : LinkInv s) :
    ∀ d b, b ∈ s.stored → ∀ m a, m ≤ b.number → b.number - m = d →
      ancestorAt s d b m = some a →
      ∀ n, n ≤ m →
        ancestorAt s (b.number - n) b n = ancestorAt s (a.number - n) a n := by
  intro d
  induction d with
  | zero =>
    intro b hb m a hm hd ha n hn
    have hbm : b.number = m := by omega
    rw [anc_self hbm] at ha
    cases ha
    rfl
  | succ d ih =>
    intro b hb m a hm hd ha n hn
    have hbm : b.number ≠ m := by omega
    have hbg : b ≠ s.genesis := by
      intro h
      have := hL.gen_num
      rw [h] at hbm hd
      omega
    obtain ⟨p, hp, hnum⟩ := hL.link b hb hbg
    have hpmem : p ∈ s.stored := (getBlock_mem hp).1
    rw [anc_step hp hbm] at ha
    have hbn : b.number ≠ n := by omega
    obtain ⟨f, hfeq⟩ : ∃ f, b.number - n = f + 1 := ⟨b.number - n - 1, by omega⟩
    rw [hfeq, anc_step hp hbn]
    have hstep := ih p hpmem m a (by omega) (by omega) ha n hn
    rw [← hstep]
    exact anc_irrel hL hpmem (by omega) (by omega) (by omega)

/-! ### Fork-walk characterization -/

theorem chainAbove_of_le {s : ChainState} {b : Block} {m : Nat} (h : b.number ≤ m) :
    ∀ fuel, chainAbove s fuel b m = [] := by
  intro fuel
  cases fuel <;> simp [chainAbove, h]

theorem chainAbove_step {s : ChainState} {b p : Block} {m : Nat}
    (hp : parentOf s b = some p) (h : ¬ b.number ≤ m) (fuel : Nat) :
    chainAbove s (fuel + 1) b m = b :: chainAbove s fuel p m := by
  simp [chainAbove, h, hp]

/-- `find?` by height over a downward chain walk picks out exactly the
ancestor at that height. -/
theorem chainAbove_find {s : ChainState} (hL : LinkInv s) :
    ∀ d b, b ∈ s.stored → ∀ m, m ≤ b.number → b.number - m = d →
      ∀ fuel, d ≤ fuel → ∀ n,
        (chainAbove s fuel b m).find? (fun a => a.number == n) =
          if m < n ∧ n ≤ b.number then ancestorAt s (b.number - n) b n else none := by
  intro d
  induction d with
  | zero =>
    intro b hb m hm hd fuel _ n
    have hbm : b.number ≤ m := by omega
    rw [chainAbove_of_le hbm]
    have : ¬ (m < n ∧ n ≤ b.number) := by omega
    simp [this]
  | succ d ih =>
    intro b hb m hm hd fuel hf n
    have hbm : ¬ b.number ≤ m := by omega
    have hbg : b ≠ s.genesis := by
      intro h
      have := hL.gen_num
      rw [h] at hbm
      omega
    obtain ⟨p, hp, hnum⟩ := hL.link b hb hbg
    have hpmem : p ∈ s.stored := (getBlock_mem hp).1
    obtain ⟨f, rfl⟩ : ∃ f, fuel = f + 1 := ⟨fuel - 1, by omega⟩
    rw [chainAbove_step hp hbm]
    by_cases hn : b.number = n
    · have hcond : m < n ∧ n ≤ b.number := by omega
      rw [List.find?_cons_of_pos _ (by simp [hn])]
      have : b.number - n = 0 := by omega
      rw [if_pos hcond, this, anc_self hn]
    · rw [List.find?_cons_of_neg _ (by simp [hn])]
      rw [ih p hpmem m (by omega) (by omega) f (by omega) n]
      by_cases hcond : m < n ∧ n ≤ p.number
      · rw [if_pos hcond, if_pos (by omega)]
        obtain ⟨f2, hf2⟩ : ∃ f2, b.number - n = f2 + 1 := ⟨b.number - n - 1, by omega⟩
        rw [hf2, anc_step hp hn]
        congr 1
        omega
      · rw [if_neg hcond, if_neg (by omega)]

theorem chainAbove_any {s : ChainState} (hL : LinkInv s) {b : Block}
    (hb : b ∈ s.stored) {m : Nat} (hm : m ≤ b.number) {fuel : Nat}
    (hf : b.number - m ≤ fuel) (n : Nat) :
    (chainAbove s fuel b m).any (fun a => a.number == n) =
      decide (m < n ∧ n ≤ b.number) := by
  have hfind := chainAbove_find hL (b.number - m) b hb m hm rfl fuel hf n
  by_cases hcond : m < n ∧ n ≤ b.number
  · rw [if_pos hcond] at hfind
    obtain ⟨a, ha⟩ := anc_some hL hb hcond.2 (le_refl _)
    rw [ha] at hfind
    rw [decide_eq_true hcond, List.any_eq_true]
    have hps := List.find?_some hfind
    exact ⟨a, List.mem_of_find?_eq_some hfind, by simpa using hps⟩
  · rw [if_neg hcond] at hfind
    rw [decide_eq_false hcond, List.any_eq_false]
    intro x hx
    have := List.find?_eq_none.mp hfind x hx
    simpa using this

/-- Membership in a chain walk: exactly the ancestors strictly above `m`. -/
theorem chainAbove_mem {s : ChainState} (hL : LinkInv s) :
    ∀ d b, b ∈ s.stored → ∀ m, m ≤ b.number → b.number - m = d →
      ∀ fuel, d ≤ fuel → ∀ a : Block,
        (a ∈ chainAbove s fuel b m ↔
          m < a.number ∧ a.number ≤ b.number ∧
            ancestorAt s (b.number - a.number) b a.number = some a) := by
  intro d
  induction d with
  | zero =>
    intro b hb m hm hd fuel _ a
    have hbm : b.number ≤ m := by omega
    rw [chainAbove_of_le hbm]
    simp only [List.not_mem_nil, false_iff]
    omega
  | succ d ih =>
    intro b hb m hm hd fuel hf a
    have hbm : ¬ b.number ≤ m := by omega
    have hbg : b ≠ s.genesis := by
      intro h
      have := hL.gen_num
      rw [h] at hbm
      omega
    obtain ⟨p, hp, hnum⟩ := hL.link b hb hbg
    have hpmem : p ∈ s.stored := (getBlock_mem hp).1
    obtain ⟨f, rfl⟩ : ∃ f, fuel = f + 1 := ⟨fuel - 1, by omega⟩
    rw [chainAbove_step hp hbm]
    constructor
    · intro ha
      rcases List.mem_cons.mp ha with rfl | hatail
      · refine ⟨by omega, le_refl _, ?_⟩
        rw [Nat.sub_self, anc_self rfl]
      · obtain ⟨h1, h2, h3⟩ :=
          (ih p hpmem m (by omega) (by omega) f (by omega) a).mp hatail
        refine ⟨h1, by omega, ?_⟩
        have hbn : b.number ≠ a.number := by omega
        obtain ⟨f2, hf2⟩ : ∃ f2, b.number - a.number = f2 + 1 :=
          ⟨b.number - a.number - 1, by omega⟩
        rw [hf2, anc_step hp hbn]
        have : f2 = p.number - a.number := by omega
        rw [this]
        exact h3
    · intro ⟨h1, h2, h3⟩
      by_cases hab : a.number = b.number
      · have h0 : b.number - a.number = 0 := by omega
        rw [h0, anc_self (by omega)] at h3
        cases h3
        exact List.mem_cons_self _ _
      · refine List.mem_cons_of_mem _ ?_
        have hbn : b.number ≠ a.number := by omega
        obtain ⟨f2, hf2⟩ : ∃ f2, b.number - a.number = f2 + 1 :=
          ⟨b.number - a.number - 1, by omega⟩
        rw [hf2, anc_step hp hbn] at h3
        have hfe : f2 = p.number - a.number := by omega
        rw [hfe] at h3
        exact (ih p hpmem m (by omega) (by omega) f (by omega) a).mpr
          ⟨h1, by omega, h3⟩

/-- Characterization of the lock-step fork walk of §4.3: with enough fuel it
returns exactly the two parent paths above the common ancestor — the highest
block shared by both walks — each ordered by decreasing height. -/
theorem forkChar {s : ChainState} (hL : LinkInv s) :
    ∀ fuel x y, x ∈ s.stored → y ∈ s.stored → x.number + y.number < fuel →
      ∃ m a, m ≤ x.number ∧ m ≤ y.number ∧
        ancestorAt s (x.number - m) x m = some a ∧
        ancestorAt s (y.number - m) y m = some a ∧
        forkAncestor s fuel x y =
          (chainAbove s x.number x m, chainAbove s y.number y m) ∧
        ∀ n, m < n → n ≤ x.number → n ≤ y.number →
          ancestorAt s (x.number - n) x n ≠ ancestorAt s (y.number - n) y n := by
  intro fuel
  induction fuel with
  | zero => intro x y _ _ h; omega
  | succ fuel ih =>
    intro x y hx hy hfuel
    by_cases hxy : x.hash = y.hash
    · have hxey : x = y := hL.hash_uniq x hx y hy hxy
      subst hxey
      refine ⟨x.number, x, le_refl _, le_refl _, ?_, ?_, ?_, ?_⟩
      · rw [Nat.sub_self]; exact anc_self rfl _
      · rw [Nat.sub_self]; exact anc_self rfl _
      · rw [chainAbove_of_le (le_refl _), forkAncestor, if_pos rfl]
      · intro n h1 h2 _; omega
    · rcases Nat.lt_trichotomy x.number y.number with hlt | heqn | hgt
      · -- the new side is higher: step down the new side
        have hyg : y ≠ s.genesis := by
          intro h
          have := hL.gen_num
          rw [h] at hlt
          omega
        obtain ⟨py, hpy, hynum⟩ := hL.link y hy hyg
        have hpymem : py ∈ s.stored := (getBlock_mem hpy).1
        obtain ⟨m, a, hm1, hm2, ha1, ha2, heq, hmax⟩ :=
          ih x py hx hpymem (by omega)
        have hpyof : parentOf s y = some py := hpy
        refine ⟨m, a, hm1, by omega, ha1, ?_, ?_, ?_⟩
        · have hyn : y.number ≠ m := by omega
          obtain ⟨f2, hf2⟩ : ∃ f2, y.number - m = f2 + 1 := ⟨y.number - m - 1, by omega⟩
          rw [hf2, anc_step hpyof hyn]
          have : f2 = py.number - m := by omega
          rw [this]
          exact ha2
        · rw [forkAncestor, if_neg hxy, if_neg (by omega : ¬ y.number < x.number),
            if_pos hlt, hpyof]
          dsimp only
          rw [heq, hynum, chainAbove_step hpyof (by omega) py.number]
        · intro n h1 h2 h3
          have hyn : y.number ≠ n := by omega
          obtain ⟨f2, hf2⟩ : ∃ f2, y.number - n = f2 + 1 := ⟨y.number - n - 1, by omega⟩
          rw [hf2, anc_step hpyof hyn]
          have : f2 = py.number - n := by omega
          rw [this]
          exact hmax n h1 h2 (by omega)
      · -- equal heights, different hashes: step both sides
        have hx0 : x.number ≠ 0 := by
          intro h0
          have hxg := num_zero_genesis hL hx h0
          have hyg := num_zero_genesis hL hy (by omega)
          rw [hxg, hyg] at hxy
          exact hxy rfl
        have hxg : x ≠ s.genesis := by
          intro h
          have := hL.gen_num
          rw [h] at hx0
          exact hx0 this
        have hyg : y ≠ s.genesis := by
          intro h
          have := hL.gen_num
          rw [h] at heqn
          omega
        obtain ⟨px, hpx, hxnum⟩ := hL.link x hx hxg
        obtain ⟨py, hpy, hynum⟩ := hL.link y hy hyg
        have hpxmem : px ∈ s.stored := (getBlock_mem hpx).1
        have hpymem : py ∈ s.stored := (getBlock_mem hpy).1
        have hpxof : parentOf s x = some px := hpx
        have hpyof : parentOf s y = some py := hpy
        obtain ⟨m, a, hm1, hm2, ha1, ha2, heq, hmax⟩ :=
          ih px py hpxmem hpymem (by omega)
        refine ⟨m, a, by omega, by omega, ?_, ?_, ?_, ?_⟩
        · have hxn : x.number ≠ m := by omega
          obtain ⟨f2, hf2⟩ : ∃ f2, x.number - m = f2 + 1 := ⟨x.number - m - 1, by omega⟩
          rw [hf2, anc_step hpxof hxn]
          have : f2 = px.number - m := by omega
          rw [this]
          exact ha1
        · have hyn : y.number ≠ m := by omega
          obtain ⟨f2, hf2⟩ : ∃ f2, y.number - m = f2 + 1 := ⟨y.number - m - 1, by omega⟩
          rw [hf2, anc_step hpyof hyn]
          have : f2 = py.number - m := by omega
          rw [this]
          exact ha2
        · rw [forkAncestor, if_neg hxy, if_neg (by omega : ¬ y.number < x.number),
            if_neg (by omega : ¬ x.number < y.number), hpxof, hpyof]
          dsimp only
          rw [heq, hxnum, chainAbove_step hpxof (by omega) px.number,
            hynum, chainAbove_step hpyof (by omega) py.number]
        · intro n h1 h2 h3
          by_cases hn : n = x.number
          · rw [hn, Nat.sub_self, anc_self rfl]
            have h0 : y.number - x.number = 0 := by omega
            rw [h0, anc_self (by omega : y.number = x.number)]
            intro hcon
            exact hxy (by rw [Option.some.inj hcon])
          · have hxn : x.number ≠ n := by omega
            have hyn : y.number ≠ n := by omega
            obtain ⟨f2, hf2⟩ : ∃ f2, x.number - n = f2 + 1 := ⟨x.number - n - 1, by omega⟩
            obtain ⟨f3, hf3⟩ : ∃ f3, y.number - n = f3 + 1 := ⟨y.number - n - 1, by omega⟩
            rw [hf2, anc_step hpxof hxn, hf3, anc_step hpyof hyn]
            have e2 : f2 = px.number - n := by omega
            have e3 : f3 = py.number - n := by omega
            rw [e2, e3]
            exact hmax n h1 (by omega) (by omega)
      · -- the old side is higher: step down the old side
        have hxg : x ≠ s.genesis := by
          intro h
          have := hL.gen_num
          rw [h] at hgt
          omega
        obtain ⟨px, hpx, hxnum⟩ := hL.link x hx hxg
        have hpxmem : px ∈ s.stored := (getBlock_mem hpx).1
        have hpxof : parentOf s x = some px := hpx
        obtain ⟨m, a, hm1, hm2, ha1, ha2, heq, hmax⟩ :=
          ih px y hpxmem hy (by omega)
        refine ⟨m, a, by omega, hm2, ?_, ha2, ?_, ?_⟩
        · have hxn : x.number ≠ m := by omega
          obtain ⟨f2, hf2⟩ : ∃ f2, x.number - m = f2 + 1 := ⟨x.number - m - 1, by omega⟩
          rw [hf2, anc_step hpxof hxn]
          have : f2 = px.number - m := by omega
          rw [this]
          exact ha1
        · rw [forkAncestor, if_neg hxy, if_pos hgt, hpxof]
          dsimp only
          rw [heq, hxnum, chainAbove_step hpxof (by omega) px.number]
        · intro n h1 h2 h3
          have hxn : x.number ≠ n := by omega
          obtain ⟨f2, hf2⟩ : ∃ f2, x.number - n = f2 + 1 := ⟨x.number - n - 1, by omega⟩
          rw [hf2, anc_step hpxof hxn]
          have : f2 = px.number - n := by omega
          rw [this]
          exact hmax n h1 (by omega) h3

/-! ### Index bookkeeping fold lemmas -/

theorem txIndexIn_isSome (l : List Nat) (t : Nat) :
    (txIndexIn l t).isSome = true ↔ t ∈ l := by
  induction l with
  | nil => simp [txIndexIn]
  | cons u rest ih =>
    by_cases hu : u = t
    · simp [txIndexIn, hu]
    · simp [txIndexIn, hu, ih, Ne.symm hu]

theorem txIndexIn_eq_none (l : List Nat) (t : Nat) (h : ¬ t ∈ l) :
    txIndexIn l t = none := by
  cases hx : txIndexIn l t with
  | none => rfl
  | some i =>
    exfalso
    exact h ((txIndexIn_isSome l t).mp (by simp [hx]))

theorem attach_txLoc_of_not {s : ChainState} {b : Block} {t : Nat} (h : ¬ t ∈ b.txs) :
    (attachBlock s b).txLoc t = s.txLoc t := by
  simp [attachBlock, txIndexIn_eq_none _ _ h]

theorem attach_txLoc_isSome {s : ChainState} {b : Block} {t : Nat} (h : t ∈ b.txs) :
    ((attachBlock s b).txLoc t).isSome = true := by
  simp only [attachBlock]
  cases hx : txIndexIn b.txs t with
  | none =>
    exfalso
    have hs := (txIndexIn_isSome b.txs t).mpr h
    rw [hx] at hs
    cases hs
  | some i => simp

theorem attach_txLoc_isSome_mono {s : ChainState} {b : Block} {t : Nat}
    (h : (s.txLoc t).isSome = true) : ((attachBlock s b).txLoc t).isSome = true := by
  simp only [attachBlock]
  cases hx : txIndexIn b.txs t with
  | none => simpa using h
  | some i => simp

theorem attach_receipts {s : ChainState} {b : Block} (t : Nat) :
    (attachBlock s b).receipts t = if t ∈ b.txs then true else s.receipts t := rfl

theorem attach_pending_mem {s : ChainState} {b : Block} (t : Nat) :
    t ∈ (attachBlock s b).pending ↔ t ∈ s.pending ∧ ¬ t ∈ b.txs := by
  simp [attachBlock, List.mem_filter]

theorem detach_txLoc {s : ChainState} {b : Block} (t : Nat) :
    (detachBlock s b).txLoc t = if t ∈ b.txs then none else s.txLoc t := rfl

theorem detach_receipts {s : ChainState} {b : Block} (t : Nat) :
    (detachBlock s b).receipts t = if t ∈ b.txs then false else s.receipts t := rfl

theorem detach_pending_mem {s : ChainState} {b : Block} (t : Nat) :
    t ∈ (detachBlock s b).pending ↔ t ∈ s.pending ∨ t ∈ b.txs := by
  simp only [detachBlock, List.mem_append, List.mem_filter]
  by_cases hp : t ∈ s.pending <;> simp [hp]

theorem foldl_attach_txLoc_not (L : List Block) (s : ChainState) (t : Nat)
    (h : ∀ b ∈ L, ¬ t ∈ b.txs) :
    (L.foldl attachBlock s).txLoc t = s.txLoc t := by
  induction L generalizing s with
  | nil => rfl
  | cons a L ih =>
    rw [List.foldl_cons, ih _ (fun b hb => h b (List.mem_cons_of_mem _ hb))]
    exact attach_txLoc_of_not (h a (List.mem_cons_self _ _))

theorem foldl_attach_txLoc_isSome_mono (L : List Block) (s : ChainState) (t : Nat)
    (h : (s.txLoc t).isSome = true) :
    ((L.foldl attachBlock s).txLoc t).isSome = true := by
  induction L generalizing s with
  | nil => exact h
  | cons a L ih => exact ih _ (attach_txLoc_isSome_mono h)

theorem foldl_attach_txLoc_isSome (L : List Block) (s : ChainState) (t : Nat)
    (h : ∃ b ∈ L, t ∈ b.txs) :
    ((L.foldl attachBlock s).txLoc t).isSome = true := by
  induction L generalizing s with
  | nil => simp at h
  | cons a L ih =>
    rw [List.foldl_cons]
    rcases h with ⟨b, hb, hbt⟩
    rcases List.mem_cons.mp hb with rfl | hbl
    · exact foldl_attach_txLoc_isSome_mono L _ t (attach_txLoc_isSome hbt)
    · exact ih _ ⟨b, hbl, hbt⟩

theorem foldl_attach_receipts_not (L : List Block) (s : ChainState) (t : Nat)
    (h : ∀ b ∈ L, ¬ t ∈ b.txs) :
    (L.foldl attachBlock s).receipts t = s.receipts t := by
  induction L generalizing s with
  | nil => rfl
  | cons a L ih =>
    rw [List.foldl_cons, ih _ (fun b hb => h b (List.mem_cons_of_mem _ hb))]
    rw [attach_receipts, if_neg (h a (List.mem_cons_self _ _))]

theorem foldl_attach_receipts_mono (L : List Block) (s : ChainState) (t : Nat)
    (h : s.receipts t = true) :
    (L.foldl attachBlock s).receipts t = true := by
  induction L generalizing s with
  | nil => exact h
  | cons a L ih =>
    refine ih _ ?_
    rw [attach_receipts]
    by_cases ht : t ∈ a.txs <;> simp [ht, h]

theorem foldl_attach_receipts_of_mem (L : List Block) (s : ChainState) (t : Nat)
    (h : ∃ b ∈ L, t ∈ b.txs) :
    (L.foldl attachBlock s).receipts t = true := by
  induction L generalizing s with
  | nil => simp at h
  | cons a L ih =>
    rw [List.foldl_cons]
    rcases h with ⟨b, hb, hbt⟩
    rcases List.mem_cons.mp hb with rfl | hbl
    · exact foldl_attach_receipts_mono L _ t (by rw [attach_receipts, if_pos hbt])
    · exact ih _ ⟨b, hbl, hbt⟩

theorem foldl_attach_pending_mem (L : List Block) (s : ChainState) (t : Nat) :
    t ∈ (L.foldl attachBlock s).pending ↔ t ∈ s.pending ∧ ∀ b ∈ L, ¬ t ∈ b.txs := by
  induction L generalizing s with
  | nil => simp
  | cons a L ih =>
    rw [List.foldl_cons, ih, attach_pending_mem]
    constructor
    · intro ⟨⟨h1, h2⟩, h3⟩
      exact ⟨h1, by
        intro b hb
        rcases List.mem_cons.mp hb with rfl | hbl
        · exact h2
        · exact h3 b hbl⟩
    · intro ⟨h1, h2⟩
      exact ⟨⟨h1, h2 a (List.mem_cons_self _ _)⟩,
        fun b hb => h2 b (List.mem_cons_of_mem _ hb)⟩

theorem foldl_attach_canonical (L : List Block) (s : ChainState) (n : Nat) :
    (L.foldl attachBlock s).canonical n =
      match L.reverse.find? (fun a => a.number == n) with
      | some a => some a.hash
      | none => s.canonical n := by
  induction L generalizing s with
  | nil => rfl
  | cons a L ih =>
    rw [List.foldl_cons, ih, List.reverse_cons, List.find?_append]
    cases hf : L.reverse.find? (fun x => x.number == n) with
    | some c => simp [hf]
    | none =>
      by_cases han : a.number = n
      · simp [hf, attachBlock, han]
      · have : (a.number == n) = false := by simp [han]
        simp [hf, this, attachBlock, Ne.symm han]

theorem foldl_detach_txLoc (L : List Block) (s : ChainState) (t : Nat) :
    (L.foldl detachBlock s).txLoc t =
      if ∃ b ∈ L, t ∈ b.txs then none else s.txLoc t := by
  induction L generalizing s with
  | nil => simp
  | cons a L ih =>
    rw [List.foldl_cons, ih]
    by_cases hat : t ∈ a.txs
    · by_cases hL : ∃ b ∈ L, t ∈ b.txs
      · simp [hL, hat]
      · simp [hL, detach_txLoc, hat]
    · by_cases hL : ∃ b ∈ L, t ∈ b.txs
      · simp [hL, hat]
      · simp [hL, detach_txLoc, hat]

theorem foldl_detach_receipts (L : List Block) (s : ChainState) (t : Nat) :
    (L.foldl detachBlock s).receipts t =
      if ∃ b ∈ L, t ∈ b.txs then false else s.receipts t := by
  induction L generalizing s with
  | nil => simp
  | cons a L ih =>
    rw [List.foldl_cons, ih]
    by_cases hat : t ∈ a.txs
    · by_cases hL : ∃ b ∈ L, t ∈ b.txs
      · simp [hL, hat]
      · simp [hL, detach_receipts, hat]
    · by_cases hL : ∃ b ∈ L, t ∈ b.txs
      · simp [hL, hat]
      · simp [hL, detach_receipts, hat]

theorem foldl_detach_pending_mem (L : List Block) (s : ChainState) (t : Nat) :
    t ∈ (L.foldl detachBlock s).pending ↔ t ∈ s.pending ∨ ∃ b ∈ L, t ∈ b.txs := by
  induction L generalizing s with
  | nil => simp
  | cons a L ih =>
    rw [List.foldl_cons, ih, detach_pending_mem]
    constructor
    · intro h
      rcases h with h1 | h2
      · rcases h1 with h1 | h1
        · exact Or.inl h1
        · exact Or.inr ⟨a, List.mem_cons_self _ _, h1⟩
      · rcases h2 with ⟨b, hb, hbt⟩
        exact Or.inr ⟨b, List.mem_cons_of_mem _ hb, hbt⟩
    · intro h
      rcases h with h1 | ⟨b, hb, hbt⟩
      · exact Or.inl (Or.inl h1)
      · rcases List.mem_cons.mp hb with rfl | hbl
        · exact Or.inl (Or.inr hbt)
        · exact Or.inr ⟨b, hbl, hbt⟩

/-! ### Insertion step case lemmas -/

theorem getBlock_store_ne {s : ChainState} {b : Block} {h : Nat} (hne : b.hash ≠ h) :
    getBlock (storeBlock s b) h = getBlock s h := by
  rw [getBlock_store, if_neg hne]

theorem tdOf_store_ne {s : ChainState} {b : Block} {h : Nat} (hne : h ≠ b.hash) :
    tdOf (storeBlock s b) h = tdOf s h := by
  rw [tdOf_store, if_neg hne]

theorem mem_storedHashes_of_get {s : ChainState} {h : Nat} {c : Block}
    (hg : getBlock s h = some c) : h ∈ storedHashes s := by
  obtain ⟨hm, hh⟩ := getBlock_mem hg
  exact hh ▸ List.mem_map_of_mem Block.hash hm

theorem insertBlock_known {env : ChainEnv} {s : ChainState} {b : Block}
    (h : hasBlock s b.hash = true) : insertBlock env s b = .ok s := by
  simp [insertBlock, h]

theorem insertBlock_future {env : ChainEnv} {s : ChainState} {b : Block}
    (h : hasBlock s b.hash = false) (hp : parentOf s b = none) :
    insertBlock env s b = .ok { s with future := s.future ++ [b] } := by
  simp [insertBlock, h, hp]

theorem insertBlock_badnum {env : ChainEnv} {s : ChainState} {b p : Block}
    (h : hasBlock s b.hash = false) (hp : parentOf s b = some p)
    (hn : b.number ≠ p.number + 1) :
    insertBlock env s b = .error (.nonceErr b.number b.hash) := by
  simp [insertBlock, h, hp, hn]

theorem insertBlock_badpow {env : ChainEnv} {s : ChainState} {b p : Block}
    (h : hasBlock s b.hash = false) (hp : parentOf s b = some p)
    (hn : b.number = p.number + 1) (hpow : env.powVerify b = false) :
    insertBlock env s b = .error (.nonceErr b.number b.hash) := by
  simp [insertBlock, h, hp, hn, hpow]

theorem insertBlock_badproc {env : ChainEnv} {s : ChainState} {b p : Block}
    (h : hasBlock s b.hash = false) (hp : parentOf s b = some p)
    (hn : b.number = p.number + 1) (hpow : env.powVerify b = true)
    (hproc : env.process b = false) :
    insertBlock env s b = .error (.processErr b.number b.hash) := by
  simp [insertBlock, h, hp, hn, hpow, hproc]

theorem insertBlock_side {env : ChainEnv} {s : ChainState} {b p : Block}
    (h : hasBlock s b.hash = false) (hp : parentOf s b = some p)
    (hn : b.number = p.number + 1) (hpow : env.powVerify b = true)
    (hproc : env.process b = true)
    (hle : tdOf (storeBlock s b) b.hash ≤ tdOf (storeBlock s b) s.head.hash) :
    insertBlock env s b = .ok (storeBlock s b) := by
  simp [insertBlock, h, hp, hn, hpow, hproc, storeBlock_head, not_lt.mpr hle]

theorem insertBlock_ext {env : ChainEnv} {s : ChainState} {b p : Block}
    (h : hasBlock s b.hash = false) (hp : parentOf s b = some p)
    (hn : b.number = p.number + 1) (hpow : env.powVerify b = true)
    (hproc : env.process b = true)
    (hgt : tdOf (storeBlock s b) s.head.hash < tdOf (storeBlock s b) b.hash)
    (hph : b.parentHash = s.head.hash) :
    insertBlock env s b = .ok { attachBlock (storeBlock s b) b with head := b } := by
  simp [insertBlock, h, hp, hn, hpow, hproc, storeBlock_head, hgt, hph]

theorem insertBlock_reorg {env : ChainEnv} {s : ChainState} {b p : Block}
    (h : hasBlock s b.hash = false) (hp : parentOf s b = some p)
    (hn : b.number = p.number + 1) (hpow : env.powVerify b = true)
    (hproc : env.process b = true)
    (hgt : tdOf (storeBlock s b) s.head.hash < tdOf (storeBlock s b) b.hash)
    (hph : b.parentHash ≠ s.head.hash) :
    insertBlock env s b =
      .ok { attachBlock (reorg (storeBlock s b) b) b with head := b } := by
  simp [insertBlock, h, hp, hn, hpow, hproc, storeBlock_head, hgt, hph]

/-! ### State congruence helpers -/

theorem linkinv_congr {s t : ChainState} (h : LinkInv s)
    (hst : t.stored = s.stored) (hgen : t.genesis = s.genesis) : LinkInv t := by
  constructor
  · rw [hst, hgen]; exact h.gen_stored
  · rw [hgen]; exact h.gen_num
  · rw [hst]; exact h.hash_uniq
  · intro b hb hbg
    rw [hst] at hb
    rw [hgen] at hbg
    obtain ⟨p, hp, hnum⟩ := h.link b hb hbg
    exact ⟨p, by rw [getBlock_congr hst]; exact hp, hnum⟩

theorem inv_congr {s t : ChainState} (h : Inv s)
    (hst : t.stored = s.stored) (htd : t.td = s.td)
    (hcan : t.canonical = s.canonical) (hhead : t.head = s.head)
    (hgen : t.genesis = s.genesis) : Inv t := by
  have htdOf : ∀ hh, tdOf t hh = tdOf s hh := fun hh => by rw [tdOf, htd]; rfl
  constructor
  · exact linkinv_congr h.toLinkInv hst hgen
  · rw [htd, hgen]; exact h.gen_td
  · intro b hb; rw [htd]; exact h.td_def b (hst ▸ hb)
  · intro hh hs
    rw [htd] at hs
    obtain ⟨c, hc, hch⟩ := h.td_dom hh hs
    exact ⟨c, hst ▸ hc, hch⟩
  · intro b hb hbg
    rw [hst] at hb
    rw [hgen] at hbg
    obtain ⟨p, hp, hlink⟩ := h.td_link b hb hbg
    refine ⟨p, by rw [getBlock_congr hst]; exact hp, ?_⟩
    rw [htd, htdOf]
    exact hlink
  · rw [hst, hhead]; exact h.head_stored
  · intro b hb
    rw [htdOf, htdOf, hhead]
    exact h.head_max b (hst ▸ hb)
  · intro n hn
    rw [hhead] at hn ⊢
    rw [hcan, ancestorAt_congr hst]
    exact h.canon_path n hn
  · intro n hn
    rw [hhead] at hn
    rw [hcan]
    exact h.canon_above n hn

/-! ### Store-step invariant facts -/

theorem fresh_of_hasBlock_false {s : ChainState} {b : Block}
    (hkf : hasBlock s b.hash = false) : ¬ b.hash ∈ storedHashes s := by
  intro hmem
  obtain ⟨c, hc, hch⟩ := List.mem_map.mp hmem
  have hcb := hasBlock_of_mem hc
  rw [hch, hkf] at hcb
  cases hcb

theorem anc_store_stable {s : ChainState} {b : Block} (hL : LinkInv s)
    (hfresh : ¬ b.hash ∈ storedHashes s) :
    ∀ fuel (x : Block) (n : Nat), x ∈ s.stored → n ≤ x.number →
      ancestorAt (storeBlock s b) fuel x n = ancestorAt s fuel x n := by
  intro fuel
  induction fuel with
  | zero => intro x n _ _; rfl
  | succ fuel ih =>
    intro x n hx hn
    by_cases hxn : x.number = n
    · rw [anc_self hxn, anc_self hxn]
    · have hxg : x ≠ s.genesis := by
        intro hg
        have := hL.gen_num
        rw [hg] at hxn hn
        omega
      obtain ⟨p, hp, hnum⟩ := hL.link x hx hxg
      have hpne : b.hash ≠ x.parentHash := by
        intro hbe
        apply hfresh
        rw [hbe]
        exact mem_storedHashes_of_get hp
      have hp1 : parentOf (storeBlock s b) x = some p := by
        rw [parentOf, getBlock_store_ne hpne]
        exact hp
      rw [anc_step hp1 hxn, anc_step hp hxn]
      exact ih p n (getBlock_mem hp).1 (by omega)

theorem linkinv_store {s : ChainState} {b p : Block} (hL : LinkInv s)
    (hkf : hasBlock s b.hash = false)
    (hp : parentOf s b = some p) (hnum : b.number = p.number + 1) :
    LinkInv (storeBlock s b) := by
  have hf := fresh_of_hasBlock_false hkf
  constructor
  · rw [storeBlock_stored, storeBlock_genesis]
    exact List.mem_cons_of_mem _ hL.gen_stored
  · rw [storeBlock_genesis]; exact hL.gen_num
  · rw [storeBlock_stored]
    intro x hx y hy hxy
    rcases List.mem_cons.mp hx with hxb | hx
    · rcases List.mem_cons.mp hy with hyb | hy
      · rw [hxb, hyb]
      · exfalso
        apply hf
        rw [← hxb, hxy]
        exact List.mem_map_of_mem Block.hash hy
    · rcases List.mem_cons.mp hy with hyb | hy
      · exfalso
        apply hf
        rw [← hyb, ← hxy]
        exact List.mem_map_of_mem Block.hash hx
      · exact hL.hash_uniq x hx y hy hxy
  · intro x hx hxg
    rw [storeBlock_stored] at hx
    rw [storeBlock_genesis] at hxg
    rcases List.mem_cons.mp hx with rfl | hx
    · have hbp : x.hash ≠ x.parentHash := by
        intro he
        apply hf
        rw [he]
        exact mem_storedHashes_of_get hp
      refine ⟨p, ?_, hnum⟩
      rw [getBlock_store_ne hbp]
      exact hp
    · obtain ⟨q, hq, hqnum⟩ := hL.link x hx hxg
      have hne : b.hash ≠ x.parentHash := by
        intro he
        apply hf
        rw [he]
        exact mem_storedHashes_of_get hq
      refine ⟨q, ?_, hqnum⟩
      rw [getBlock_store_ne hne]
      exact hq

theorem tdOf_store_stored {s : ChainState} {b c : Block}
    (hf : ¬ b.hash ∈ storedHashes s) (hc : c ∈ s.stored) :
    tdOf (storeBlock s b) c.hash = tdOf s c.hash := by
  refine tdOf_store_ne ?_
  intro he
  apply hf
  rw [← he]
  exact List.mem_map_of_mem Block.hash hc

theorem store_gen_td {s : ChainState} {b : Block} (hI : Inv s)
    (hf : ¬ b.hash ∈ storedHashes s) :
    (storeBlock s b).td (storeBlock s b).genesis.hash =
      some (storeBlock s b).genesis.difficulty := by
  rw [storeBlock_genesis, td_store, if_neg ?_]
  · exact hI.gen_td
  · intro he
    apply hf
    rw [← he]
    exact List.mem_map_of_mem Block.hash hI.toLinkInv.gen_stored

theorem store_td_def {s : ChainState} {b : Block} (hI : Inv s)
    (hf : ¬ b.hash ∈ storedHashes s) :
    ∀ c ∈ (storeBlock s b).stored, ((storeBlock s b).td c.hash).isSome := by
  intro c hc
  rw [storeBlock_stored] at hc
  rcases List.mem_cons.mp hc with rfl | hc
  · rw [td_store, if_pos rfl]; rfl
  · rw [td_store, if_neg ?_]
    · exact hI.td_def c hc
    · intro he
      apply hf
      rw [← he]
      exact List.mem_map_of_mem Block.hash hc

theorem store_td_dom {s : ChainState} {b : Block} (hI : Inv s) :
    ∀ h, ((storeBlock s b).td h).isSome →
      ∃ c ∈ (storeBlock s b).stored, c.hash = h := by
  intro h hs
  rw [td_store] at hs
  rw [storeBlock_stored]
  by_cases hh : h = b.hash
  · exact ⟨b, List.mem_cons_self _ _, hh.symm⟩
  · rw [if_neg hh] at hs
    obtain ⟨c, hc, hch⟩ := hI.td_dom h hs
    exact ⟨c, List.mem_cons_of_mem _ hc, hch⟩

theorem store_td_link {s : ChainState} {b p : Block} (hI : Inv s)
    (hkf : hasBlock s b.hash = false)
    (hp : parentOf s b = some p) (hnum : b.number = p.number + 1) :
    ∀ c ∈ (storeBlock s b).stored, c ≠ (storeBlock s b).genesis →
      ∃ q, getBlock (storeBlock s b) c.parentHash = some q ∧
        (storeBlock s b).td c.hash = some (tdOf (storeBlock s b) q.hash + c.difficulty) := by
  have hf := fresh_of_hasBlock_false hkf
  intro c hc hcg
  rw [storeBlock_stored] at hc
  rw [storeBlock_genesis] at hcg
  rcases List.mem_cons.mp hc with rfl | hc
  · have hbp : c.hash ≠ c.parentHash := by
      intro he
      apply hf
      rw [he]
      exact mem_storedHashes_of_get hp
    refine ⟨p, by rw [getBlock_store_ne hbp]; exact hp, ?_⟩
    rw [td_store, if_pos rfl]
    have hph : p.hash = c.parentHash := (getBlock_mem hp).2
    rw [← hph, tdOf_store_stored hf (getBlock_mem hp).1, hph]
  · obtain ⟨q, hq, hqtd⟩ := hI.td_link c hc hcg
    have hne : b.hash ≠ c.parentHash := by
      intro he
      apply hf
      rw [he]
      exact mem_storedHashes_of_get hq
    refine ⟨q, by rw [getBlock_store_ne hne]; exact hq, ?_⟩
    have hcb : c.hash ≠ b.hash := by
      intro he
      apply hf
      rw [← he]
      exact List.mem_map_of_mem Block.hash hc
    rw [td_store, if_neg hcb, tdOf_store_stored hf (getBlock_mem hq).1]
    exact hqtd

theorem attach_canonical (s : ChainState) (b : Block) (n : Nat) :
    (attachBlock s b).canonical n = if n = b.number then some b.hash else s.canonical n := rfl

theorem tdOf_congr {s t : ChainState} (h : t.td = s.td) (hh : Nat) :
    tdOf t hh = tdOf s hh := by
  rw [tdOf, tdOf, h]

theorem inv_store_side {s : ChainState} {b p : Block} (hI : Inv s)
    (hkf : hasBlock s b.hash = false)
    (hp : parentOf s b = some p) (hnum : b.number = p.number + 1)
    (hle : tdOf (storeBlock s b) b.hash ≤ tdOf (storeBlock s b) s.head.hash) :
    Inv (storeBlock s b) := by
  have hf := fresh_of_hasBlock_false hkf
  have hL1 := linkinv_store hI.toLinkInv hkf hp hnum
  constructor
  · exact hL1
  · exact store_gen_td hI hf
  · exact store_td_def hI hf
  · exact store_td_dom hI
  · exact store_td_link hI hkf hp hnum
  · rw [storeBlock_stored, storeBlock_head]
    exact List.mem_cons_of_mem _ hI.head_stored
  · intro c hc
    rw [storeBlock_stored] at hc
    rw [storeBlock_head]
    rcases List.mem_cons.mp hc with hcb | hc
    · rw [hcb]
      exact hle
    · rw [tdOf_store_stored hf hc, tdOf_store_stored hf hI.head_stored]
      exact hI.head_max c hc
  · intro n hn
    rw [storeBlock_head] at hn ⊢
    rw [storeBlock_canonical]
    rw [anc_store_stable hI.toLinkInv hf _ _ _ hI.head_stored hn]
    exact hI.canon_path n hn
  · intro n hn
    rw [storeBlock_head] at hn
    rw [storeBlock_canonical]
    exact hI.canon_above n hn

theorem inv_store_ext {s : ChainState} {b p : Block} (hI : Inv s)
    (hkf : hasBlock s b.hash = false)
    (hp : parentOf s b = some p) (hnum : b.number = p.number + 1)
    (hgt : tdOf (storeBlock s b) s.head.hash < tdOf (storeBlock s b) b.hash)
    (hph : b.parentHash = s.head.hash) :
    Inv { attachBlock (storeBlock s b) b with head := b } := by
  have hf := fresh_of_hasBlock_false hkf
  have hL1 := linkinv_store hI.toLinkInv hkf hp hnum
  have hphead : p = s.head := by
    refine hI.toLinkInv.hash_uniq p (getBlock_mem hp).1 s.head hI.head_stored ?_
    rw [(getBlock_mem hp).2, hph]
  have hbp : b.hash ≠ b.parentHash := by
    intro he
    apply hf
    rw [he]
    exact mem_storedHashes_of_get hp
  have hp1 : parentOf (storeBlock s b) b = some p := by
    rw [parentOf, getBlock_store_ne hbp]
    exact hp
  have hstored1 : ({ attachBlock (storeBlock s b) b with head := b } : ChainState).stored =
      (storeBlock s b).stored := rfl
  have htd1 : ({ attachBlock (storeBlock s b) b with head := b } : ChainState).td =
      (storeBlock s b).td := rfl
  constructor
  · exact linkinv_congr hL1 hstored1 rfl
  · exact store_gen_td hI hf
  · exact store_td_def hI hf
  · exact store_td_dom hI
  · exact store_td_link hI hkf hp hnum
  · show b ∈ (storeBlock s b).stored
    rw [storeBlock_stored]
    exact List.mem_cons_self _ _
  · -- head_max
    intro c hc
    show tdOf (storeBlock s b) c.hash ≤ tdOf (storeBlock s b) b.hash
    rw [hstored1, storeBlock_stored] at hc
    rcases List.mem_cons.mp hc with hcb | hc
    · rw [hcb]
    · rw [tdOf_store_stored hf hc]
      refine le_of_lt (lt_of_le_of_lt ?_ hgt)
      rw [tdOf_store_stored hf hI.head_stored]
      exact hI.head_max c hc
  · -- canon_path
    intro n hn
    show (attachBlock (storeBlock s b) b).canonical n =
      (ancestorAt ({ attachBlock (storeBlock s b) b with head := b } : ChainState)
        b.number b n).map Block.hash
    rw [ancestorAt_congr hstored1, attach_canonical]
    by_cases hnb : n = b.number
    · rw [if_pos hnb, hnb, anc_self rfl]
      rfl
    · rw [if_neg hnb, storeBlock_canonical]
      have hnp : n ≤ p.number := by
        have : n ≤ b.number := hn
        omega
      have hnhead : n ≤ s.head.number := by rw [← hphead]; exact hnp
      rw [hI.canon_path n hnhead]
      have hstep : ancestorAt (storeBlock s b) b.number b n =
          ancestorAt (storeBlock s b) p.number p n := by
        rw [hnum, anc_step hp1 (by omega)]
      rw [hstep, hphead]
      rw [anc_store_stable hI.toLinkInv hf _ _ _ hI.head_stored (hphead ▸ hnp)]
  · -- canon_above
    intro n hn
    show (attachBlock (storeBlock s b) b).canonical n = none
    have hnb : n ≠ b.number := by
      have : b.number < n := hn
      omega
    rw [attach_canonical, if_neg hnb, storeBlock_canonical]
    refine hI.canon_above n ?_
    have : b.number < n := hn
    rw [hphead] at hnum
    omega

theorem inv_store_reorg {s : ChainState} {b p : Block} (hI : Inv s)
    (hkf : hasBlock s b.hash = false)
    (hp : parentOf s b = some p) (hnum : b.number = p.number + 1)
    (hgt : tdOf (storeBlock s b) s.head.hash < tdOf (storeBlock s b) b.hash) :
    Inv { attachBlock (reorg (storeBlock s b) b) b with head := b } := by
  have hf := fresh_of_hasBlock_false hkf
  have hL1 := linkinv_store hI.toLinkInv hkf hp hnum
  have hbp : b.hash ≠ b.parentHash := by
    intro he
    apply hf
    rw [he]
    exact mem_storedHashes_of_get hp
  have hp1 : parentOf (storeBlock s b) b = some p := by
    rw [parentOf, getBlock_store_ne hbp]
    exact hp
  have hxmem : s.head ∈ (storeBlock s b).stored := by
    rw [storeBlock_stored]
    exact List.mem_cons_of_mem _ hI.head_stored
  have hpmem1 : p ∈ (storeBlock s b).stored := by
    rw [storeBlock_stored]
    exact List.mem_cons_of_mem _ (getBlock_mem hp).1
  obtain ⟨m, a, hm1, hm2, ha1, ha2, hfa, hmax⟩ :=
    forkChar hL1 (s.head.number + p.number + 1) s.head p hxmem hpmem1 (by omega)
  have hre : reorg (storeBlock s b) b =
      (chainAbove (storeBlock s b) p.number p m).reverse.foldl attachBlock
        { (chainAbove (storeBlock s b) s.head.number s.head m).foldl detachBlock
            (storeBlock s b) with
          canonical := fun n =>
            if (chainAbove (storeBlock s b) s.head.number s.head m).any
                (fun d => d.number == n) then none
            else ((chainAbove (storeBlock s b) s.head.number s.head m).foldl detachBlock
              (storeBlock s b)).canonical n } := by
    unfold reorg
    rw [hp1]
    dsimp only
    rw [storeBlock_head, hfa]
  -- the canonical index after the reorg, pointwise
  have hcanR : ∀ n, (reorg (storeBlock s b) b).canonical n =
      match (chainAbove (storeBlock s b) p.number p m).find? (fun c => c.number == n) with
      | some c => some c.hash
      | none =>
        if (chainAbove (storeBlock s b) s.head.number s.head m).any
            (fun d => d.number == n) then none
        else s.canonical n := by
    intro n
    rw [hre, foldl_attach_canonical, List.reverse_reverse]
    cases hfind : (chainAbove (storeBlock s b) p.number p m).find?
        (fun c => c.number == n) with
    | some c => rfl
    | none =>
      dsimp only
      rw [foldl_detach_canonical, storeBlock_canonical]
  have hstored1 : ({ attachBlock (reorg (storeBlock s b) b) b with head := b } :
      ChainState).stored = (storeBlock s b).stored := by
    show (attachBlock (reorg (storeBlock s b) b) b).stored = _
    rw [attachBlock_stored, reorg_stored]
  have htd1 : ({ attachBlock (reorg (storeBlock s b) b) b with head := b } :
      ChainState).td = (storeBlock s b).td := by
    show (attachBlock (reorg (storeBlock s b) b) b).td = _
    rw [attachBlock_td, reorg_td]
  have hgen1 : ({ attachBlock (reorg (storeBlock s b) b) b with head := b } :
      ChainState).genesis = (storeBlock s b).genesis := by
    show (attachBlock (reorg (storeBlock s b) b) b).genesis = _
    rw [attachBlock_genesis, reorg_genesis]
  have hamem := anc_mem (s.head.number - m) s.head m a hxmem ha1
  constructor
  · exact linkinv_congr hL1 hstored1 hgen1
  · rw [htd1, hgen1]
    exact store_gen_td hI hf
  · intro c hc
    rw [hstored1] at hc
    rw [htd1]
    exact store_td_def hI hf c hc
  · intro h hs
    rw [htd1] at hs
    obtain ⟨c, hc, hch⟩ := store_td_dom hI h hs
    rw [hstored1]
    exact ⟨c, hc, hch⟩
  · intro c hc hcg
    rw [hstored1] at hc
    rw [hgen1] at hcg
    obtain ⟨q, hq, hqtd⟩ := store_td_link hI hkf hp hnum c hc hcg
    refine ⟨q, ?_, ?_⟩
    · rw [getBlock_congr hstored1]
      exact hq
    · rw [htd1, tdOf_congr htd1]
      exact hqtd
  · show b ∈ ({ attachBlock (reorg (storeBlock s b) b) b with head := b } :
      ChainState).stored
    rw [hstored1, storeBlock_stored]
    exact List.mem_cons_self _ _
  · -- head_max
    intro c hc
    rw [hstored1, storeBlock_stored] at hc
    show tdOf _ c.hash ≤ tdOf _ b.hash
    rw [tdOf_congr htd1, tdOf_congr htd1]
    rcases List.mem_cons.mp hc with hcb | hc
    · rw [hcb]
    · rw [tdOf_store_stored hf hc]
      refine le_of_lt (lt_of_le_of_lt ?_ hgt)
      rw [tdOf_store_stored hf hI.head_stored]
      exact hI.head_max c hc
  · -- canon_path
    intro n hn
    show (attachBlock (reorg (storeBlock s b) b) b).canonical n =
      (ancestorAt ({ attachBlock (reorg (storeBlock s b) b) b with head := b } :
        ChainState) b.number b n).map Block.hash
    rw [ancestorAt_congr hstored1, attach_canonical]
    by_cases hnb : n = b.number
    · rw [if_pos hnb, hnb, anc_self rfl]
      rfl
    · have hnp : n ≤ p.number := by
        have : n ≤ b.number := hn
        omega
      rw [if_neg hnb, hcanR n]
      have hstep : ancestorAt (storeBlock s b) b.number b n =
          ancestorAt (storeBlock s b) p.number p n := by
        rw [hnum, anc_step hp1 (by omega)]
      rw [hstep]
      rw [chainAbove_find hL1 (p.number - m) p hpmem1 m hm2 rfl p.number (by omega) n]
      by_cases hm : m < n
      · rw [if_pos ⟨hm, hnp⟩]
        obtain ⟨c, hc⟩ := anc_some hL1 hpmem1 hnp (le_refl (p.number - n))
        rw [hc]
        rw [anc_irrel hL1 hpmem1 hnp (by omega) (le_refl (p.number - n)), hc]
        rfl
      · rw [if_neg (by omega : ¬ (m < n ∧ n ≤ p.number))]
        dsimp only
        rw [chainAbove_any hL1 hxmem hm1 (Nat.sub_le _ _) n,
          decide_eq_false (by omega : ¬ (m < n ∧ n ≤ s.head.number))]
        simp only [Bool.false_eq_true, if_false]
        have hnm : n ≤ m := by omega
        have hnhead : n ≤ s.head.number := by omega
        rw [hI.canon_path n hnhead]
        rw [← anc_store_stable hI.toLinkInv hf _ _ _ hI.head_stored hnhead]
        have hcomp1 := anc_compose hL1 (s.head.number - m) s.head hxmem m a hm1 rfl ha1 n hnm
        have hcomp2 := anc_compose hL1 (p.number - m) p hpmem1 m a hm2 rfl ha2 n hnm
        have he1 : ancestorAt (storeBlock s b) s.head.number s.head n =
            ancestorAt (storeBlock s b) (s.head.number - n) s.head n :=
          anc_irrel hL1 hxmem hnhead (by omega) (by omega)
        have he2 : ancestorAt (storeBlock s b) p.number p n =
            ancestorAt (storeBlock s b) (p.number - n) p n :=
          anc_irrel hL1 hpmem1 hnp (by omega) (by omega)
        rw [he1, he2, hcomp1, hcomp2]
  · -- canon_above
    intro n hn
    have hbn : b.number < n := hn
    show (attachBlock (reorg (storeBlock s b) b) b).canonical n = none
    rw [attach_canonical, if_neg (by omega), hcanR n]
    rw [chainAbove_find hL1 (p.number - m) p hpmem1 m hm2 rfl p.number (by omega) n]
    rw [if_neg (by omega : ¬ (m < n ∧ n ≤ p.number))]
    dsimp only
    rw [chainAbove_any hL1 hxmem hm1 (Nat.sub_le _ _) n]
    by_cases hns : n ≤ s.head.number
    · rw [decide_eq_true (by omega : m < n ∧ n ≤ s.head.number)]
      simp
    · rw [decide_eq_false (by omega : ¬ (m < n ∧ n ≤ s.head.number))]
      simp only [Bool.false_eq_true, if_false]
      exact hI.canon_above n (by omega)

/-! ### Invariant preservation -/

theorem insert_inv {env : ChainEnv} {s t : ChainState} {b : Block}
    (hI : Inv s) (hok : insertBlock env s b = .ok t) : Inv t := by
  by_cases hkb : hasBlock s b.hash = true
  · rw [insertBlock_known hkb] at hok
    have := Except.ok.inj hok
    subst this
    exact hI
  · have hkf : hasBlock s b.hash = false := by
      cases h : hasBlock s b.hash
      · rfl
      · exact absurd h hkb
    cases hpar : parentOf s b with
    | none =>
      rw [insertBlock_future hkf hpar] at hok
      have := Except.ok.inj hok
      subst this
      exact inv_congr hI rfl rfl rfl rfl rfl
    | some p =>
      by_cases hnum : b.number = p.number + 1
      · cases hpow : env.powVerify b with
        | false =>
          rw [insertBlock_badpow hkf hpar hnum hpow] at hok
          cases hok
        | true =>
          cases hproc : env.process b with
          | false =>
            rw [insertBlock_badproc hkf hpar hnum hpow hproc] at hok
            cases hok
          | true =>
            by_cases hcmp : tdOf (storeBlock s b) s.head.hash < tdOf (storeBlock s b) b.hash
            · by_cases hph : b.parentHash = s.head.hash
              · rw [insertBlock_ext hkf hpar hnum hpow hproc hcmp hph] at hok
                have := Except.ok.inj hok
                subst this
                exact inv_store_ext hI hkf hpar hnum hcmp hph
              · rw [insertBlock_reorg hkf hpar hnum hpow hproc hcmp hph] at hok
                have := Except.ok.inj hok
                subst this
                exact inv_store_reorg hI hkf hpar hnum hcmp
            · rw [insertBlock_side hkf hpar hnum hpow hproc (not_lt.mp hcmp)] at hok
              have := Except.ok.inj hok
              subst this
              exact inv_store_side hI hkf hpar hnum (not_lt.mp hcmp)
      · rw [insertBlock_badnum hkf hpar hnum] at hok
        cases hok

theorem insertChain_inv {env : ChainEnv} {s : ChainState} (hI : Inv s) :
    ∀ B : List Block, Inv (insertChain env s B).1 := by
  intro B
  induction B generalizing s with
  | nil => exact hI
  | cons b rest ih =>
    cases hb : insertBlock env s b with
    | ok s1 =>
      simp only [insertChain, hb]
      exact ih (insert_inv hI hb)
    | error e =>
      simp only [insertChain, hb]
      exact hI

theorem runBatches_inv {env : ChainEnv} {s : ChainState} (hI : Inv s) :
    ∀ batches : List (List Block), Inv (runBatches env s batches) := by
  intro batches
  induction batches generalizing s with
  | nil => exact hI
  | cons bs rest ih =>
    simp only [runBatches]
    exact ih (insertChain_inv hI bs)

theorem mkChainState_inv {g : Block} (h0 : g.number = 0) : Inv (mkChainState g) := by
  constructor
  · constructor
    · exact List.mem_singleton.mpr rfl
    · exact h0
    · intro b hb c hc _
      rw [List.mem_singleton.mp hb, List.mem_singleton.mp hc]
    · intro b hb hbg
      exact absurd (List.mem_singleton.mp hb) hbg
  · show (if g.hash = g.hash then some g.difficulty else none) = some g.difficulty
    rw [if_pos rfl]
  · intro c hc
    rw [List.mem_singleton.mp hc]
    show (if g.hash = g.hash then some g.difficulty else none).isSome
    rw [if_pos rfl]
    rfl
  · intro h hs
    by_cases hh : h = g.hash
    · exact ⟨g, List.mem_singleton.mpr rfl, hh.symm⟩
    · exfalso
      have : (mkChainState g).td h = none := by
        show (if h = g.hash then some g.difficulty else none) = none
        rw [if_neg hh]
      rw [this] at hs
      cases hs
  · intro c hc hcg
    exact absurd (List.mem_singleton.mp hc) hcg
  · exact List.mem_singleton.mpr rfl
  · intro c hc
    rw [List.mem_singleton.mp hc]
    exact le_refl _
  · intro n hn
    have hn0 : n = 0 := by
      have : (mkChainState g).head.number = 0 := h0
      omega
    subst hn0
    show (if 0 = g.number then some g.hash else none) =
      (ancestorAt (mkChainState g) g.number g 0).map Block.hash
    rw [if_pos h0.symm, h0]
    show _ = (ancestorAt (mkChainState g) 0 g 0).map Block.hash
    rw [anc_self h0]
    rfl
  · intro n hn
    have : 0 < n := by
      have : (mkChainState g).head.number = 0 := h0
      omega
    show (if n = g.number then some g.hash else none) = none
    rw [if_neg (by omega)]

/-! ## Claim theorems -/

/-- C7: inserting a block that is already stored is an idempotent no-op — the
known-block condition is not an error, the block is skipped rather than
reprocessed (the resulting state is exactly the state reached by the rest of
the batch alone), processing continues with the next block, the skip is
counted, and the batch's error is unchanged. -/
theorem c7_known_block_skip (env : ChainEnv) (s : ChainState) (b : Block)
    (rest : List Block) (h : hasBlock s b.hash = true) :
    insertChain env s (b :: rest) =
      ((insertChain env s rest).1, (insertChain env s rest).2.1 + 1,
        (insertChain env s rest).2.2) := by
  simp only [insertChain, insertBlock_known h]

theorem c7_witness :
    hasBlock (mkChainState gBlock) gBlock.hash = true ∧
    insertChain defEnv (mkChainState gBlock) [gBlock] =
      ((insertChain defEnv (mkChainState gBlock) []).1,
        (insertChain defEnv (mkChainState gBlock) []).2.1 + 1,
        (insertChain defEnv (mkChainState gBlock) []).2.2) :=
  ⟨by decide, c7_known_block_skip defEnv (mkChainState gBlock) gBlock [] (by decide)⟩

/-- C8: `ShardCache.Commit` performs no database writes (the write journal is
returned unchanged), always returns a nil error, empties the set of updated
shard filters, and leaves the in-memory filters and backing database
untouched. -/
theorem c8_commit_stub (c : ShardCache) (dbw : List (List Nat × List Nat)) :
    (c.Commit dbw).2.1 = dbw ∧ (c.Commit dbw).2.2 = none ∧
    (c.Commit dbw).1.updated = [] ∧ (c.Commit dbw).1.shards = c.shards ∧
    (c.Commit dbw).1.db = c.db :=
  ⟨rfl, rfl, rfl, rfl, rfl⟩

/-- C9: after `ShardCache.Set` of a key, `ShardCache.Test` of that key returns
true (no false negatives for added keys); and when `Test` already answers
true, `Set` short-circuits — it returns exactly the `Test`-cached state,
leaves `updated` unmarked, and modifies no cached filter. -/
theorem c9_set_then_test (fresh : BloomFilter) (c : ShardCache) (shard key : List Nat) :
    (ShardCache.Test fresh (ShardCache.Set fresh c shard key) shard key).2 = true ∧
    ((ShardCache.Test fresh c shard key).2 = true →
      ShardCache.Set fresh c shard key = (ShardCache.Test fresh c shard key).1 ∧
      (ShardCache.Set fresh c shard key).updated = c.updated ∧
      ∀ id f0, lookupShard c.shards id = some f0 →
        lookupShard (ShardCache.Set fresh c shard key).shards id = some f0) := by
  constructor
  · -- no false negatives for added keys
    obtain ⟨f, hf, hft⟩ := ShardCache.test_caches fresh c shard key
    by_cases ht : (ShardCache.Test fresh c shard key).2 = true
    · rw [ShardCache.Set]
      simp only [ht, if_true]
      rw [ShardCache.Test, hf]
      dsimp only
      rw [hft]
      exact ht
    · have hfalse : (ShardCache.Test fresh c shard key).2 = false := by
        cases hv : (ShardCache.Test fresh c shard key).2
        · rfl
        · exact absurd hv ht
      rw [ShardCache.Set]
      simp only [hfalse, Bool.false_eq_true, if_false]
      rw [hf]
      dsimp only
      rw [ShardCache.Test, lookupShard_setShard_self _ _ _ (by rw [hf]; rfl)]
      dsimp only
      exact BloomFilter.test_add f key
  · intro ht
    refine ⟨?_, ?_, ?_⟩
    · rw [ShardCache.Set]
      simp only [ht, if_true]
    · rw [ShardCache.Set]
      simp only [ht, if_true]
      exact (ShardCache.test_updated fresh c shard key).1
    · intro id f0 hf0
      rw [ShardCache.Set]
      simp only [ht, if_true]
      exact ShardCache.test_preserves fresh c shard key id f0 hf0

theorem c9_witness :
    (ShardCache.Test
      { hashes := [fun k => k.length], bits := fun _ => false }
      (ShardCache.Set { hashes := [fun k => k.length], bits := fun _ => false }
        { db := fun _ => none, shards := [], updated := [] } [1] [5, 6])
      [1] [5, 6]).2 = true :=
  (c9_set_then_test { hashes := [fun k => k.length], bits := fun _ => false }
    { db := fun _ => none, shards := [], updated := [] } [1] [5, 6]).1

/-- C10: when the transaction pool rejects a submitted transaction,
`SendTransaction` returns the zero hash together with a nil error — the
pool's rejection is silently swallowed — while `SendRawTransaction` returns
the pool's `Add` error. -/
theorem c10_sendtx_swallows_pool_error (env : TxPoolEnv) (args : SendTxArgs)
    (stx : Transaction) (e : String) (raw : List Nat) (rtx : Transaction) (e2 : String)
    (hsign : env.sign args.fromAddr (buildTx env args) = .ok stx)
    (hadd : env.addTx stx = some e)
    (hdec : env.decodeTx raw = .ok rtx)
    (hadd2 : env.addTx rtx = some e2) :
    SendTransaction env args = (0, none) ∧
    SendRawTransaction env raw = (none, some e2) := by
  constructor
  · rw [SendTransaction, hsign]
    dsimp only
    rw [hadd]
  · rw [SendRawTransaction, hdec]
    dsimp only
    rw [hadd2]

theorem c10_witness :
    SendTransaction wEnv wArgs = (0, none) ∧
    SendRawTransaction wEnv [0] = (none, some "rejected") :=
  c10_sendtx_swallows_pool_error wEnv wArgs (buildTx wEnv wArgs) "rejected"
    [0] wTx "rejected" rfl rfl rfl rfl

/-! ### Branch insertion -/

theorem diffSum_nil : diffSum [] = 0 := rfl

theorem diffSum_cons (b : Block) (rest : List Block) :
    diffSum (b :: rest) = b.difficulty + diffSum rest := by
  simp [diffSum]

theorem diffSum_pos {B : List Block} (hp : posDiff B = true) (hne : B ≠ []) :
    1 ≤ diffSum B := by
  cases B with
  | nil => exact absurd rfl hne
  | cons b rest =>
    rw [diffSum_cons]
    have hb : b.difficulty ≠ 0 := by
      have := hp
      simp [posDiff] at this
      exact this.1
    omega

theorem linkedFrom_cons {r b : Block} {rest : List Block}
    (h : linkedFrom r (b :: rest) = true) :
    b.parentHash = r.hash ∧ b.number = r.number + 1 ∧ linkedFrom b rest = true := by
  have h2 : (b.parentHash = r.hash ∧ b.number = r.number + 1) ∧
      linkedFrom b rest = true := by simpa [linkedFrom] using h
  exact ⟨h2.1.1, h2.1.2, h2.2⟩

theorem freshChain_cons {s : ChainState} {b : Block} {rest : List Block}
    (h : freshChain s (b :: rest) = true) :
    ¬ b.hash ∈ storedHashes s ∧ ¬ b.hash ∈ rest.map Block.hash ∧
      freshChain s rest = true := by
  have h2 : (¬ b.hash ∈ storedHashes s ∧ ∀ x ∈ rest, ¬ x.hash = b.hash) ∧
      freshChain s rest = true := by simpa [freshChain] using h
  refine ⟨h2.1.1, ?_, h2.2⟩
  intro hmem
  obtain ⟨x, hx, hxh⟩ := List.mem_map.mp hmem
  exact h2.1.2 x hx hxh

theorem validChain_cons {env : ChainEnv} {b : Block} {rest : List Block}
    (h : validChain env (b :: rest) = true) :
    env.powVerify b = true ∧ env.process b = true ∧ validChain env rest = true := by
  have h2 : (env.powVerify b = true ∧ env.process b = true) ∧
      ∀ x ∈ rest, env.powVerify x = true ∧ env.process x = true := by
    simpa [validChain] using h
  refine ⟨h2.1.1, h2.1.2, ?_⟩
  rw [validChain, List.all_eq_true]
  intro x hx
  rw [Bool.and_eq_true]
  exact h2.2 x hx

theorem posDiff_cons {b : Block} {rest : List Block} (h : posDiff (b :: rest) = true) :
    b.difficulty ≠ 0 ∧ posDiff rest = true := by
  simpa [posDiff] using h

theorem getLastD_irrel {α : Type} {l : List α} (hne : l ≠ []) (d1 d2 : α) :
    l.getLastD d1 = l.getLastD d2 := by
  cases l with
  | nil => exact absurd rfl hne
  | cons a l =>
    rw [List.getLastD_cons, List.getLastD_cons]

/-- Freshness of the remaining branch carries over to the state with the new
block stored. -/
theorem freshChain_step :
    ∀ (rest : List Block) (s t : ChainState) (b : Block),
      storedHashes t = b.hash :: storedHashes s →
      freshChain s rest = true → ¬ b.hash ∈ rest.map Block.hash →
      freshChain t rest = true := by
  intro rest
  induction rest with
  | nil => intro s t b _ _ _; rfl
  | cons c rest2 ih =>
    intro s t b hhash hfresh hb
    obtain ⟨h1, h2, h3⟩ := freshChain_cons hfresh
    simp only [List.map_cons, List.mem_cons] at hb
    push_neg at hb
    have hc1 : ¬ c.hash ∈ storedHashes t := by
      rw [hhash]
      intro hmem
      rcases List.mem_cons.mp hmem with he | hm
      · exact hb.1 he.symm
      · exact h1 hm
    simp only [freshChain, Bool.and_eq_true]
    refine ⟨⟨by simpa using hc1, by simpa using h2⟩, ?_⟩
    exact ih s t b hhash h3 hb.2

/-- Outcome of one validated insertion step: the block is persisted with its
TD, and it becomes the head exactly when its TD strictly exceeds the head's. -/
theorem insertBlock_valid_step {env : ChainEnv} {s : ChainState} {b p : Block}
    (hkf : hasBlock s b.hash = false)
    (hp : parentOf s b = some p) (hnum : b.number = p.number + 1)
    (hpow : env.powVerify b = true) (hproc : env.process b = true) :
    ∃ t, insertBlock env s b = .ok t ∧
      t.stored = b :: s.stored ∧
      t.td = (storeBlock s b).td ∧
      t.head = (if tdOf (storeBlock s b) s.head.hash < tdOf (storeBlock s b) b.hash
        then b else s.head) := by
  by_cases hcmp : tdOf (storeBlock s b) s.head.hash < tdOf (storeBlock s b) b.hash
  · by_cases hph : b.parentHash = s.head.hash
    · refine ⟨_, insertBlock_ext hkf hp hnum hpow hproc hcmp hph, ?_, ?_, ?_⟩
      · show (attachBlock (storeBlock s b) b).stored = _
        rw [attachBlock_stored, storeBlock_stored]
      · show (attachBlock (storeBlock s b) b).td = _
        rw [attachBlock_td]
      · rw [if_pos hcmp]
    · refine ⟨_, insertBlock_reorg hkf hp hnum hpow hproc hcmp hph, ?_, ?_, ?_⟩
      · show (attachBlock (reorg (storeBlock s b) b) b).stored = _
        rw [attachBlock_stored, reorg_stored, storeBlock_stored]
      · show (attachBlock (reorg (storeBlock s b) b) b).td = _
        rw [attachBlock_td, reorg_td]
      · rw [if_pos hcmp]
  · refine ⟨_, insertBlock_side hkf hp hnum hpow hproc (not_lt.mp hcmp), ?_, ?_, ?_⟩
    · rw [storeBlock_stored]
    · rfl
    · rw [if_neg hcmp, storeBlock_head]

/-- Inserting a fresh, parent-linked, fully valid branch rooted at a stored
block: every block is consumed without error and persisted with its TD, old
TD entries are untouched, the tip's TD is the root's TD plus the branch's
cumulative difficulty, and the head moves to the branch tip exactly when that
cumulative TD strictly exceeds the starting head's TD. -/
theorem insertBranch {env : ChainEnv} :
    ∀ (B : List Block) (s : ChainState) (r : Block), Inv s → r ∈ s.stored →
      linkedFrom r B = true → freshChain s B = true →
      validChain env B = true →
      (insertChain env s B).2.1 = B.length ∧
      (insertChain env s B).2.2 = none ∧
      (insertChain env s B).1.stored = B.reverse ++ s.stored ∧
      (∀ h, ¬ h ∈ B.map Block.hash → (insertChain env s B).1.td h = s.td h) ∧
      (B ≠ [] → (insertChain env s B).1.td (B.getLastD r).hash =
        some (tdOf s r.hash + diffSum B)) ∧
      (posDiff B = true → (insertChain env s B).1.head =
        if tdOf s s.head.hash < tdOf s r.hash + diffSum B then B.getLastD s.head
        else s.head) := by
  intro B
  induction B with
  | nil =>
    intro s r hI hr _ _ _
    refine ⟨rfl, rfl, rfl, fun h _ => rfl, fun h => absurd rfl h, fun _ => ?_⟩
    rw [diffSum_nil, if_neg ?_]
    · rfl
    · have := hI.head_max r hr
      omega
  | cons b rest ih =>
    intro s r hI hr hlink hfresh hvalid
    obtain ⟨hbp, hbn, hlink2⟩ := linkedFrom_cons hlink
    obtain ⟨hf1, hf2, hf3⟩ := freshChain_cons hfresh
    obtain ⟨hv1, hv2, hv3⟩ := validChain_cons hvalid
    have hkf : hasBlock s b.hash = false := hasBlock_false_of_fresh hf1
    have hpr : parentOf s b = some r := by
      rw [parentOf, hbp]
      exact getBlock_of_mem hI.toLinkInv.hash_uniq hr
    obtain ⟨t, hok, hst, htd, hhead⟩ := insertBlock_valid_step hkf hpr hbn hv1 hv2
    have hIt : Inv t := insert_inv hI hok
    have hbh_ne : ∀ h, h ∈ storedHashes s → h ≠ b.hash := by
      intro h hmem he
      rw [he] at hmem
      exact hf1 hmem
    have htd_old : ∀ h, h ≠ b.hash → t.td h = s.td h := by
      intro h hne
      rw [htd, td_store, if_neg hne]
    have htd_b : t.td b.hash = some (tdOf s r.hash + b.difficulty) := by
      rw [htd, td_store, if_pos rfl, hbp]
    have htdOf_b : tdOf t b.hash = tdOf s r.hash + b.difficulty := by
      rw [tdOf, htd_b]
      rfl
    have hshne : s.head.hash ≠ b.hash :=
      hbh_ne s.head.hash (List.mem_map_of_mem Block.hash hI.head_stored)
    have htdOf_head : tdOf t s.head.hash = tdOf s s.head.hash := by
      rw [tdOf, htd_old _ hshne, tdOf]
    have hsb_head : tdOf (storeBlock s b) s.head.hash = tdOf s s.head.hash :=
      tdOf_store_ne hshne
    have hsb_b : tdOf (storeBlock s b) b.hash = tdOf s r.hash + b.difficulty := by
      rw [tdOf_store, if_pos rfl, hbp]
    rw [hsb_head, hsb_b] at hhead
    have hfrest : freshChain t rest = true :=
      freshChain_step rest s t b (by rw [storedHashes, hst]; rfl) hf3 hf2
    have hbt : b ∈ t.stored := by
      rw [hst]
      exact List.mem_cons_self _ _
    obtain ⟨ihc, ihe, ihst, ihtdo, ihtip, ihhead0⟩ :=
      ih t b hIt hbt hlink2 hfrest hv3
    have hins : insertChain env s (b :: rest) =
        ((insertChain env t rest).1, (insertChain env t rest).2.1 + 1,
          (insertChain env t rest).2.2) := by
      simp only [insertChain, hok]
    refine ⟨?_, ?_, ?_, ?_, ?_, ?_⟩
    · rw [hins]
      show (insertChain env t rest).2.1 + 1 = rest.length + 1
      rw [ihc]
    · rw [hins]
      exact ihe
    · rw [hins]
      show (insertChain env t rest).1.stored = _
      rw [ihst, hst, List.reverse_cons, List.append_assoc]
      rfl
    · intro h hmem
      rw [hins]
      show (insertChain env t rest).1.td h = s.td h
      simp only [List.map_cons, List.mem_cons] at hmem
      push_neg at hmem
      rw [ihtdo h hmem.2, htd_old h hmem.1]
    · intro _
      rw [hins]
      show (insertChain env t rest).1.td ((b :: rest).getLastD r).hash = _
      rw [List.getLastD_cons, diffSum_cons]
      cases hrest : rest with
      | nil =>
        show t.td b.hash = _
        rw [htd_b, diffSum_nil, Nat.add_zero]
      | cons c rest2 =>
        rw [← hrest]
        have hne : rest ≠ [] := by rw [hrest]; exact List.cons_ne_nil _ _
        rw [ihtip hne, htdOf_b, Nat.add_assoc]
    · intro hpos
      obtain ⟨hd1, hd2⟩ := posDiff_cons hpos
      have ihhead := ihhead0 hd2
      rw [hins]
      show (insertChain env t rest).1.head = _
      rw [ihhead, List.getLastD_cons, diffSum_cons, htdOf_b]
      by_cases hc1 : tdOf s s.head.hash < tdOf s r.hash + b.difficulty
      · rw [if_pos hc1] at hhead
        rw [hhead, htdOf_b]
        cases hrest : rest with
        | nil =>
          rw [diffSum_nil, if_neg (by omega), if_pos (by omega)]
          rfl
        | cons c rest2 =>
          rw [← hrest]
          have hne : rest ≠ [] := by rw [hrest]; exact List.cons_ne_nil _ _
          have hpos2 : 1 ≤ diffSum rest := diffSum_pos hd2 hne
          rw [if_pos (by omega), if_pos (by omega)]
      · rw [if_neg hc1] at hhead
        rw [hhead, htdOf_head]
        by_cases hc2 : tdOf s s.head.hash < tdOf s r.hash + b.difficulty + diffSum rest
        · have hne : rest ≠ [] := by
            intro he
            rw [he, diffSum_nil] at hc2
            omega
          rw [if_pos hc2, if_pos (by omega)]
          exact getLastD_irrel hne s.head b
        · rw [if_neg hc2, if_neg (by omega)]

theorem freshChain_all {s : ChainState} :
    ∀ B, freshChain s B = true → ∀ x ∈ B, ¬ x.hash ∈ storedHashes s := by
  intro B
  induction B with
  | nil => intro _ x hx; cases hx
  | cons b rest ih =>
    intro hf x hx
    obtain ⟨h1, _, h3⟩ := freshChain_cons hf
    rcases List.mem_cons.mp hx with hxb | hx2
    · rw [hxb]; exact h1
    · exact ih h3 x hx2

theorem freshChain_transport {s t : ChainState} {L : List Block}
    (hst : t.stored = L ++ s.stored) :
    ∀ B, freshChain s B = true → (∀ x ∈ B, ¬ x.hash ∈ L.map Block.hash) →
      freshChain t B = true := by
  intro B
  induction B with
  | nil => intro _ _; rfl
  | cons b rest ih =>
    intro hf hd
    obtain ⟨h1, h2, h3⟩ := freshChain_cons hf
    have hbt : ¬ b.hash ∈ storedHashes t := by
      rw [storedHashes, hst, List.map_append]
      intro hmem
      rcases List.mem_append.mp hmem with hm | hm
      · exact hd b (List.mem_cons_self _ _) hm
      · exact h1 hm
    simp only [freshChain, Bool.and_eq_true]
    exact ⟨⟨by simpa using hbt, by simpa using h2⟩,
      ih h3 (fun x hx => hd x (List.mem_cons_of_mem _ hx))⟩

theorem freshChain_parts {s : ChainState} :
    ∀ P Q, freshChain s (P ++ Q) = true →
      freshChain s P = true ∧ freshChain s Q = true ∧
        ∀ x ∈ Q, ¬ x.hash ∈ P.map Block.hash := by
  intro P
  induction P with
  | nil =>
    intro Q h
    exact ⟨rfl, h, fun x _ hx => by cases hx⟩
  | cons b P ih =>
    intro Q h
    obtain ⟨h1, h2, h3⟩ := freshChain_cons h
    obtain ⟨hp, hq, hd⟩ := ih Q h3
    have hbP : ¬ b.hash ∈ P.map Block.hash := by
      intro hm
      apply h2
      have : b.hash ∈ P.map Block.hash ++ Q.map Block.hash :=
        List.mem_append.mpr (Or.inl hm)
      simpa using this
    have hbQ : ∀ x ∈ Q, x.hash ≠ b.hash := by
      intro x hx he
      apply h2
      have hxm : b.hash ∈ Q.map Block.hash := by
        rw [← he]
        exact List.mem_map_of_mem Block.hash hx
      have : b.hash ∈ P.map Block.hash ++ Q.map Block.hash :=
        List.mem_append.mpr (Or.inr hxm)
      simpa using this
    refine ⟨?_, hq, ?_⟩
    · simp only [freshChain, Bool.and_eq_true]
      exact ⟨⟨by simpa using h1, by simpa using hbP⟩, hp⟩
    · intro x hx
      rw [List.map_cons]
      intro hm
      rcases List.mem_cons.mp hm with he | hm2
      · exact hbQ x hx he
      · exact hd x hx hm2

theorem linkedFrom_append {r : Block} :
    ∀ P Q, linkedFrom r (P ++ Q) = true →
      linkedFrom r P = true ∧ linkedFrom (P.getLastD r) Q = true := by
  intro P
  induction P generalizing r with
  | nil => intro Q h; exact ⟨rfl, h⟩
  | cons b P ih =>
    intro Q h
    obtain ⟨h1, h2, h3⟩ := linkedFrom_cons h
    obtain ⟨hp, hq⟩ := ih Q h3
    refine ⟨?_, ?_⟩
    · simp only [linkedFrom, Bool.and_eq_true]
      exact ⟨⟨by simpa using h1, by simpa using h2⟩, hp⟩
    · rw [List.getLastD_cons]
      exact hq

theorem getLastD_mem {α : Type} : ∀ (l : List α) (d : α), l.getLastD d ∈ d :: l := by
  intro l
  induction l with
  | nil =>
    intro d
    show d ∈ [d]
    exact List.mem_cons_self _ _
  | cons a l ih =>
    intro d
    rw [List.getLastD_cons]
    rcases List.mem_cons.mp (ih a) with he | hm
    · rw [he]
      exact List.mem_cons_of_mem _ (List.mem_cons_self _ _)
    · exact List.mem_cons_of_mem _ (List.mem_cons_of_mem _ hm)

theorem insertChain_append (env : ChainEnv) :
    ∀ (P Q : List Block) (s : ChainState), (insertChain env s P).2.2 = none →
      insertChain env s (P ++ Q) =
        ((insertChain env (insertChain env s P).1 Q).1,
          (insertChain env s P).2.1 + (insertChain env (insertChain env s P).1 Q).2.1,
          (insertChain env (insertChain env s P).1 Q).2.2) := by
  intro P
  induction P with
  | nil =>
    intro Q s _
    rw [List.nil_append]
    show insertChain env s Q = ((insertChain env s Q).1,
      0 + (insertChain env s Q).2.1, (insertChain env s Q).2.2)
    rw [Nat.zero_add]
  | cons b P ih =>
    intro Q s herr
    cases hb : insertBlock env s b with
    | ok t =>
      have hcons2 : insertChain env s (b :: P) =
          ((insertChain env t P).1, (insertChain env t P).2.1 + 1,
            (insertChain env t P).2.2) := by
        simp only [insertChain, hb]
      have herr2 : (insertChain env t P).2.2 = none := by
        rw [hcons2] at herr
        exact herr
      have hcons1 : insertChain env s (b :: (P ++ Q)) =
          ((insertChain env t (P ++ Q)).1, (insertChain env t (P ++ Q)).2.1 + 1,
            (insertChain env t (P ++ Q)).2.2) := by
        simp only [insertChain, hb]
      rw [List.cons_append, hcons1, ih Q t herr2, hcons2]
      dsimp only
      simp only [Prod.mk.injEq]
      refine ⟨trivial, ?_, trivial⟩
      omega
    | error e =>
      exfalso
      have : insertChain env s (b :: P) = (s, 0, some e) := by
        simp only [insertChain, hb]
      rw [this] at herr
      cases herr

theorem stored_not_in_fresh {s : ChainState} {B : List Block}
    (hf : freshChain s B = true) {h : Nat} (hmem : h ∈ storedHashes s) :
    ¬ h ∈ B.map Block.hash := by
  intro hm
  obtain ⟨x, hx, hxh⟩ := List.mem_map.mp hm
  apply freshChain_all B hf x hx
  rw [hxh]
  exact hmem

theorem hashDisjoint_spec {A B : List Block} (h : hashDisjoint A B = true) :
    ∀ hh, hh ∈ A.map Block.hash → ¬ hh ∈ B.map Block.hash := by
  intro hh hmA hmB
  obtain ⟨x, hx, hxh⟩ := List.mem_map.mp hmA
  rw [hashDisjoint, List.all_eq_true] at h
  have hthis := h x hx
  have hc : (B.map Block.hash).contains x.hash = true := by
    rw [List.contains_iff_exists_mem_beq]
    exact ⟨hh, hmB, by simp [hxh]⟩
  rw [hc] at hthis
  cases hthis

/-- C1: for every pair of competing branches extending a common ancestor (the
current head), after `insertChain` has been called with both branches — in
either order — the branch whose tip has strictly greater cumulative total
difficulty is canonical: `currentHead` is that branch's last block, even when
the heavier branch is shorter in height. -/
theorem c1_heavier_branch_wins (env : ChainEnv) (s : ChainState) (A B : List Block)
    (hI : Inv s) (hAne : A ≠ []) (hBne : B ≠ [])
    (hlA : linkedFrom s.head A = true) (hlB : linkedFrom s.head B = true)
    (hfA : freshChain s A = true) (hfB : freshChain s B = true)
    (hdisj : hashDisjoint A B = true)
    (hvA : validChain env A = true) (hvB : validChain env B = true)
    (hpA : posDiff A = true) (hpB : posDiff B = true)
    (hheavy : diffSum B < diffSum A) :
    currentHead (insertChain env (insertChain env s A).1 B).1 = A.getLastD s.head ∧
    currentHead (insertChain env (insertChain env s B).1 A).1 = A.getLastD s.head := by
  have hdisj2 := hashDisjoint_spec hdisj
  have hApos : 1 ≤ diffSum A := diffSum_pos hpA hAne
  have hBpos : 1 ≤ diffSum B := diffSum_pos hpB hBne
  have hshead_mem : s.head.hash ∈ storedHashes s :=
    List.mem_map_of_mem Block.hash hI.head_stored
  constructor
  · -- A first, then B
    obtain ⟨_, _, hstA, htdoA, htipA, hheadA⟩ :=
      insertBranch A s s.head hI hI.head_stored hlA hfA hvA
    have hheadA2 : (insertChain env s A).1.head = A.getLastD s.head := by
      rw [hheadA hpA, if_pos (by omega)]
    have hI1 : Inv (insertChain env s A).1 := insertChain_inv hI A
    have hfB1 : freshChain (insertChain env s A).1 B = true := by
      refine freshChain_transport hstA B hfB ?_
      intro x hx hm
      have hmA : x.hash ∈ A.map Block.hash := by
        simpa [List.map_reverse] using hm
      exact hdisj2 x.hash hmA (List.mem_map_of_mem Block.hash hx)
    have hr1 : s.head ∈ (insertChain env s A).1.stored := by
      rw [hstA]
      exact List.mem_append.mpr (Or.inr hI.head_stored)
    obtain ⟨_, _, _, _, _, hheadB1⟩ :=
      insertBranch B (insertChain env s A).1 s.head hI1 hr1 hlB hfB1 hvB
    have htdtip1 : tdOf (insertChain env s A).1 (A.getLastD s.head).hash =
        tdOf s s.head.hash + diffSum A := by
      rw [tdOf, htipA hAne]
      rfl
    have htdhead1 : tdOf (insertChain env s A).1 s.head.hash = tdOf s s.head.hash := by
      rw [tdOf, htdoA s.head.hash (stored_not_in_fresh hfA hshead_mem), tdOf]
    show (insertChain env (insertChain env s A).1 B).1.head = _
    rw [hheadB1 hpB, hheadA2, htdtip1, htdhead1, if_neg (by omega)]
  · -- B first, then A
    obtain ⟨_, _, hstB, htdoB, htipB, hheadB⟩ :=
      insertBranch B s s.head hI hI.head_stored hlB hfB hvB
    have hheadB2 : (insertChain env s B).1.head = B.getLastD s.head := by
      rw [hheadB hpB, if_pos (by omega)]
    have hI1 : Inv (insertChain env s B).1 := insertChain_inv hI B
    have hfA1 : freshChain (insertChain env s B).1 A = true := by
      refine freshChain_transport hstB A hfA ?_
      intro x hx hm
      have hmB : x.hash ∈ B.map Block.hash := by
        simpa [List.map_reverse] using hm
      exact hdisj2 x.hash (List.mem_map_of_mem Block.hash hx) hmB
    have hr1 : s.head ∈ (insertChain env s B).1.stored := by
      rw [hstB]
      exact List.mem_append.mpr (Or.inr hI.head_stored)
    obtain ⟨_, _, _, _, _, hheadA1⟩ :=
      insertBranch A (insertChain env s B).1 s.head hI1 hr1 hlA hfA1 hvA
    have htdtip1 : tdOf (insertChain env s B).1 (B.getLastD s.head).hash =
        tdOf s s.head.hash + diffSum B := by
      rw [tdOf, htipB hBne]
      rfl
    have htdhead1 : tdOf (insertChain env s B).1 s.head.hash = tdOf s s.head.hash := by
      rw [tdOf, htdoB s.head.hash (stored_not_in_fresh hfB hshead_mem), tdOf]
    show (insertChain env (insertChain env s B).1 A).1.head = _
    rw [hheadA1 hpA, hheadB2, htdtip1, htdhead1, if_pos (by omega)]
    exact getLastD_irrel hAne _ _

theorem c1_witness :
    currentHead (insertChain defEnv (insertChain defEnv (mkChainState gBlock) cA).1 cB).1
      = cA.getLastD (mkChainState gBlock).head ∧
    currentHead (insertChain defEnv (insertChain defEnv (mkChainState gBlock) cB).1 cA).1
      = cA.getLastD (mkChainState gBlock).head :=
  c1_heavier_branch_wins defEnv (mkChainState gBlock) cA cB
    (mkChainState_inv rfl) (by decide) (by decide) (by decide) (by decide)
    (by decide) (by decide) (by decide) (by decide) (by decide) (by decide)
    (by decide) (by decide)

/-- C2: for every already-canonical head and every competing branch whose tip
has exactly equal cumulative total difficulty, inserting the competing branch
never changes the canonical head: canonicalization requires strictly greater
TD, so on a TD tie the first-seen chain stays canonical. -/
theorem c2_equal_td_keeps_head (env : ChainEnv) (s : ChainState) (B : List Block)
    (r : Block) (hI : Inv s) (hr : r ∈ s.stored)
    (hl : linkedFrom r B = true) (hf : freshChain s B = true)
    (hv : validChain env B = true) (hp : posDiff B = true)
    (heq : tdOf s r.hash + diffSum B = tdOf s s.head.hash) :
    currentHead (insertChain env s B).1 = currentHead s := by
  obtain ⟨_, _, _, _, _, hhead⟩ := insertBranch B s r hI hr hl hf hv
  show (insertChain env s B).1.head = s.head
  rw [hhead hp, if_neg (by omega)]

theorem c2_witness :
    currentHead (insertChain defEnv
      (insertChain defEnv (mkChainState gBlock) [blkE1]).1 cB).1 =
    currentHead (insertChain defEnv (mkChainState gBlock) [blkE1]).1 :=
  c2_equal_td_keeps_head defEnv (insertChain defEnv (mkChainState gBlock) [blkE1]).1
    cB gBlock (insertChain_inv (mkChainState_inv rfl) [blkE1]) (by decide)
    (by decide) (by decide) (by decide) (by decide) (by decide)

/-- C3: for every batch in which the block at 1-indexed position k is the
first to fail seal verification, `insertChain` returns admittedCount = k-1
together with a nonce error carrying exactly block k's height and hash, and
no block at positions k..N is stored afterwards. -/
theorem c3_nonce_error_stops_batch (env : ChainEnv) (s : ChainState)
    (P S : List Block) (bk : Block) (r : Block)
    (hI : Inv s) (hr : r ∈ s.stored)
    (hlink : linkedFrom r (P ++ bk :: S) = true)
    (hfresh : freshChain s (P ++ bk :: S) = true)
    (hvP : validChain env P = true)
    (hpow : env.powVerify bk = false) :
    (insertChain env s (P ++ bk :: S)).2.1 = P.length ∧
    (insertChain env s (P ++ bk :: S)).2.2 =
      some (InsertErr.nonceErr bk.number bk.hash) ∧
    ∀ c ∈ bk :: S, hasBlock (insertChain env s (P ++ bk :: S)).1 c.hash = false := by
  obtain ⟨hlP, hlQ⟩ := linkedFrom_append P (bk :: S) hlink
  obtain ⟨hfP, hfQ, hdQ⟩ := freshChain_parts P (bk :: S) hfresh
  obtain ⟨hcnt, herr, hstP, _, _, _⟩ := insertBranch P s r hI hr hlP hfP hvP
  have happ := insertChain_append env P (bk :: S) s herr
  have hI1 : Inv (insertChain env s P).1 := insertChain_inv hI P
  have hroot_mem : P.getLastD r ∈ (insertChain env s P).1.stored := by
    rw [hstP]
    rcases List.mem_cons.mp (getLastD_mem P r) with he | hm
    · rw [he]
      exact List.mem_append.mpr (Or.inr hr)
    · exact List.mem_append.mpr (Or.inl (List.mem_reverse.mpr hm))
  obtain ⟨hbkp, hbkn, _⟩ := linkedFrom_cons hlQ
  have hfreshQ1 : ∀ c ∈ bk :: S, ¬ c.hash ∈ storedHashes (insertChain env s P).1 := by
    intro c hc hm
    rw [storedHashes, hstP, List.map_append] at hm
    rcases List.mem_append.mp hm with hm1 | hm1
    · have : c.hash ∈ P.map Block.hash := by
        simpa [List.map_reverse] using hm1
      exact hdQ c hc this
    · exact freshChain_all (bk :: S) hfQ c hc hm1
  have hkf1 : hasBlock (insertChain env s P).1 bk.hash = false :=
    hasBlock_false_of_fresh (hfreshQ1 bk (List.mem_cons_self _ _))
  have hpr1 : parentOf (insertChain env s P).1 bk = some (P.getLastD r) := by
    rw [parentOf, hbkp]
    exact getBlock_of_mem hI1.toLinkInv.hash_uniq hroot_mem
  have hstep : insertBlock env (insertChain env s P).1 bk =
      .error (.nonceErr bk.number bk.hash) :=
    insertBlock_badpow hkf1 hpr1 hbkn hpow
  have hQrun : insertChain env (insertChain env s P).1 (bk :: S) =
      ((insertChain env s P).1, 0, some (.nonceErr bk.number bk.hash)) := by
    simp only [insertChain, hstep]
  rw [happ, hQrun]
  refine ⟨?_, rfl, ?_⟩
  · dsimp only
    omega
  · intro c hc
    dsimp only
    exact hasBlock_false_of_fresh (hfreshQ1 c hc)

theorem c3_witness :
    (insertChain failEnv (mkChainState gBlock) ([blkA1] ++ blkN2 :: [blkN3])).2.1 = 1 ∧
    (insertChain failEnv (mkChainState gBlock)
      ([blkA1] ++ blkN2 :: [blkN3])).2.2 =
      some (InsertErr.nonceErr blkN2.number blkN2.hash) ∧
    ∀ c ∈ blkN2 :: [blkN3],
      hasBlock (insertChain failEnv (mkChainState gBlock)
        ([blkA1] ++ blkN2 :: [blkN3])).1 c.hash = false :=
  c3_nonce_error_stops_batch failEnv (mkChainState gBlock) [blkA1] [blkN3] blkN2
    gBlock (mkChainState_inv rfl) (by decide) (by decide) (by decide)
    (by decide) (by decide)

/-- The canonical-index properties that follow from the invariant: the head is
indexed at its height, every height up to the head has exactly the indexed
ancestor block, consecutive canonical blocks are parent-linked, and height
zero is genesis. -/
theorem inv_canon_props {s : ChainState} (hI : Inv s) :
    s.canonical s.head.number = some s.head.hash ∧
    (∀ n, n ≤ s.head.number →
      ∃ b : Block, s.canonical n = some b.hash ∧ b ∈ s.stored ∧ b.number = n) ∧
    (∀ n, n < s.head.number →
      ∃ b c : Block, s.canonical n = some b.hash ∧
        s.canonical (n + 1) = some c.hash ∧ c.parentHash = b.hash) ∧
    s.canonical 0 = some s.genesis.hash := by
  have hL := hI.toLinkInv
  have hzero : ∀ b ∈ s.stored, b.number = 0 → b.hash = s.genesis.hash := by
    intro b hb h0
    rw [num_zero_genesis hL hb h0]
  refine ⟨?_, ?_, ?_, ?_⟩
  · rw [hI.canon_path _ (le_refl _), anc_self rfl]
    rfl
  · intro n hn
    obtain ⟨a, ha⟩ := anc_some hL hI.head_stored hn (Nat.sub_le _ _)
    obtain ⟨ham, han⟩ := anc_mem _ _ _ _ hI.head_stored ha
    refine ⟨a, ?_, ham, han⟩
    rw [hI.canon_path n hn, ha]
    rfl
  · intro n hn
    obtain ⟨c, hc⟩ := anc_some hL hI.head_stored
      (show n + 1 ≤ s.head.number by omega) (Nat.sub_le _ _)
    obtain ⟨hcm, hcn⟩ := anc_mem _ _ _ _ hI.head_stored hc
    have hcg : c ≠ s.genesis := by
      intro he
      have := hL.gen_num
      rw [he] at hcn
      omega
    obtain ⟨q, hq, hqn⟩ := hL.link c hcm hcg
    have hqh : q.hash = c.parentHash := (getBlock_mem hq).2
    have hfix : ancestorAt s (s.head.number - (n + 1)) s.head (n + 1) = some c := by
      rw [anc_irrel hL hI.head_stored (show n + 1 ≤ s.head.number by omega)
        (le_refl (s.head.number - (n + 1))) (Nat.sub_le _ _)]
      exact hc
    have hcomp := anc_compose hL (s.head.number - (n + 1)) s.head hI.head_stored
      (n + 1) c (by omega) rfl hfix n (by omega)
    have hstep : ancestorAt s (c.number - n) c n = some q := by
      have h1 : c.number - n = 1 := by omega
      rw [h1, anc_step (show parentOf s c = some q from hq) (by omega)]
      exact anc_self (by omega) 0
    refine ⟨q, c, ?_, ?_, hqh.symm⟩
    · rw [hI.canon_path n (by omega),
        anc_irrel hL hI.head_stored (by omega : n ≤ s.head.number)
          (Nat.sub_le _ _) (le_refl (s.head.number - n))]
      rw [hcomp, hstep]
      rfl
    · rw [hI.canon_path (n + 1) (by omega), hc]
      rfl
  · obtain ⟨a, ha⟩ := anc_some hL hI.head_stored (Nat.zero_le _) (Nat.sub_le _ _)
    obtain ⟨ham, han⟩ := anc_mem _ _ _ _ hI.head_stored ha
    rw [hI.canon_path 0 (Nat.zero_le _), ha]
    show some a.hash = _
    rw [hzero a ham han]

/-- A successful single insertion never changes the genesis block. -/
theorem insertBlock_genesis {env : ChainEnv} {s t : ChainState} {b : Block}
    (hok : insertBlock env s b = .ok t) : t.genesis = s.genesis := by
  by_cases hkb : hasBlock s b.hash = true
  · rw [insertBlock_known hkb] at hok
    have h := Except.ok.inj hok
    subst h
    rfl
  · have hkf : hasBlock s b.hash = false := by
      cases h : hasBlock s b.hash
      · rfl
      · exact absurd h hkb
    cases hp : parentOf s b with
    | none =>
      rw [insertBlock_future hkf hp] at hok
      have h := Except.ok.inj hok
      subst h
      rfl
    | some p =>
      by_cases hn : b.number = p.number + 1
      · cases hpow : env.powVerify b with
        | false =>
          rw [insertBlock_badpow hkf hp hn hpow] at hok
          cases hok
        | true =>
          cases hproc : env.process b with
          | false =>
            rw [insertBlock_badproc hkf hp hn hpow hproc] at hok
            cases hok
          | true =>
            by_cases hgt :
                tdOf (storeBlock s b) s.head.hash < tdOf (storeBlock s b) b.hash
            · by_cases hph : b.parentHash = s.head.hash
              · rw [insertBlock_ext hkf hp hn hpow hproc hgt hph] at hok
                have h := Except.ok.inj hok
                subst h
                show (attachBlock (storeBlock s b) b).genesis = s.genesis
                rw [attachBlock_genesis, storeBlock_genesis]
              · rw [insertBlock_reorg hkf hp hn hpow hproc hgt hph] at hok
                have h := Except.ok.inj hok
                subst h
                show (attachBlock (reorg (storeBlock s b) b) b).genesis = s.genesis
                rw [attachBlock_genesis, reorg_genesis, storeBlock_genesis]
            · rw [insertBlock_side hkf hp hn hpow hproc (not_lt.mp hgt)] at hok
              have h := Except.ok.inj hok
              subst h
              exact storeBlock_genesis s b
      · rw [insertBlock_badnum hkf hp hn] at hok
        cases hok

/-- A whole batch never changes the genesis block. -/
theorem insertChain_genesis {env : ChainEnv} {s : ChainState} :
    ∀ B : List Block, (insertChain env s B).1.genesis = s.genesis := by
  intro B
  induction B generalizing s with
  | nil => rfl
  | cons b rest ih =>
    cases hb : insertBlock env s b with
    | ok s1 =>
      simp only [insertChain, hb]
      rw [ih]
      exact insertBlock_genesis hb
    | error e =>
      simp only [insertChain, hb]

/-- Any sequence of batches never changes the genesis block. -/
theorem runBatches_genesis {env : ChainEnv} {s : ChainState} :
    ∀ batches : List (List Block), (runBatches env s batches).genesis = s.genesis := by
  intro batches
  induction batches generalizing s with
  | nil => rfl
  | cons bs rest ih =>
    simp only [runBatches]
    rw [ih, insertChain_genesis]

/-- C5: After any sequence of insertChain calls on a genesis-initialized state
(including sequences that trigger reorgs), the canonical chain is internally
linked and unique per height: every height up to the current head has exactly
one canonical block — stored, at that height, and unique among stored blocks —
the canonical block at height n + 1 has the canonical block at height n as its
parent, and height zero is genesis. -/
theorem c5_canonical_linked_unique {env : ChainEnv} {g : Block} (h0 : g.number = 0)
    (batches : List (List Block)) :
    (∀ n, n ≤ (runBatches env (mkChainState g) batches).head.number →
      ∃ b : Block,
        (runBatches env (mkChainState g) batches).canonical n = some b.hash ∧
        b ∈ (runBatches env (mkChainState g) batches).stored ∧ b.number = n ∧
        ∀ c ∈ (runBatches env (mkChainState g) batches).stored,
          (runBatches env (mkChainState g) batches).canonical n = some c.hash →
            c = b) ∧
    (∀ n, n < (runBatches env (mkChainState g) batches).head.number →
      ∃ b c : Block,
        (runBatches env (mkChainState g) batches).canonical n = some b.hash ∧
        (runBatches env (mkChainState g) batches).canonical (n + 1) = some c.hash ∧
        c.parentHash = b.hash) ∧
    (runBatches env (mkChainState g) batches).canonical 0 = some g.hash := by
  have hI : Inv (runBatches env (mkChainState g) batches) :=
    runBatches_inv (mkChainState_inv h0) batches
  obtain ⟨hhead, hex, hlink, hzero⟩ := inv_canon_props hI
  refine ⟨?_, hlink, ?_⟩
  · intro n hn
    obtain ⟨b, hb, hbm, hbn⟩ := hex n hn
    refine ⟨b, hb, hbm, hbn, ?_⟩
    intro c hcm hc
    have hch : c.hash = b.hash := by
      rw [hb] at hc
      exact (Option.some.inj hc).symm
    exact hI.toLinkInv.hash_uniq c hcm b hbm hch
  · have hg : (runBatches env (mkChainState g) batches).genesis = g :=
      runBatches_genesis batches
    rw [hzero, hg]

theorem c5_witness :
    gBlock.number = 0 ∧
      (runBatches defEnv (mkChainState gBlock) [cA, cB]).canonical 0 =
        some gBlock.hash :=
  ⟨by decide, (c5_canonical_linked_unique (by decide) [cA, cB]).2.2⟩

/-- C4: After any sequence of insertChain calls on a genesis-initialized state,
total difficulty is persisted for every stored block — canonical or side — with
TD(genesis) fixed at the genesis difficulty, and every stored non-genesis block
B has a stored parent whose persisted TD t satisfies TD(B) = t + difficulty(B),
so totalDifficulty is recoverable even for non-canonical blocks. -/
theorem c4_td_bookkeeping {env : ChainEnv} {g : Block} (h0 : g.number = 0)
    (batches : List (List Block)) :
    totalDifficulty (runBatches env (mkChainState g) batches) g.hash =
      some g.difficulty ∧
    (∀ b ∈ (runBatches env (mkChainState g) batches).stored,
      (totalDifficulty (runBatches env (mkChainState g) batches) b.hash).isSome) ∧
    (∀ b ∈ (runBatches env (mkChainState g) batches).stored,
      b ≠ (runBatches env (mkChainState g) batches).genesis →
      ∃ p t,
        getBlock (runBatches env (mkChainState g) batches) b.parentHash = some p ∧
        totalDifficulty (runBatches env (mkChainState g) batches) p.hash = some t ∧
        totalDifficulty (runBatches env (mkChainState g) batches) b.hash =
          some (t + b.difficulty)) := by
  have hI : Inv (runBatches env (mkChainState g) batches) :=
    runBatches_inv (mkChainState_inv h0) batches
  have hg : (runBatches env (mkChainState g) batches).genesis = g :=
    runBatches_genesis batches
  refine ⟨?_, hI.td_def, ?_⟩
  · have h1 := hI.gen_td
    rw [hg] at h1
    exact h1
  · intro b hb hbg
    obtain ⟨p, hp, htd⟩ := hI.td_link b hb hbg
    have hpm : p ∈ (runBatches env (mkChainState g) batches).stored :=
      (getBlock_mem hp).1
    obtain ⟨t, ht⟩ := Option.isSome_iff_exists.mp (hI.td_def p hpm)
    refine ⟨p, t, hp, ht, ?_⟩
    show (runBatches env (mkChainState g) batches).td b.hash =
      some (t + b.difficulty)
    rw [htd]
    have htv : tdOf (runBatches env (mkChainState g) batches) p.hash = t := by
      unfold tdOf
      rw [ht]
      rfl
    rw [htv]

theorem c4_witness :
    gBlock.number = 0 ∧
      totalDifficulty (runBatches defEnv (mkChainState gBlock) [cA]) gBlock.hash =
        some gBlock.difficulty :=
  ⟨by decide, (c4_td_bookkeeping (by decide) [cA]).1⟩

theorem diffSum_append (P Q : List Block) :
    diffSum (P ++ Q) = diffSum P + diffSum Q := by
  simp [diffSum]

theorem validChain_parts {env : ChainEnv} (P Q : List Block)
    (h : validChain env (P ++ Q) = true) :
    validChain env P = true ∧ validChain env Q = true := by
  rw [validChain, List.all_append, Bool.and_eq_true] at h
  exact h

theorem posDiff_parts (P Q : List Block) (h : posDiff (P ++ Q) = true) :
    posDiff P = true ∧ posDiff Q = true := by
  rw [posDiff, List.all_append, Bool.and_eq_true] at h
  exact h

/-- The crossing point of a branch whose cumulative difficulty exceeds a
threshold: the maximal prefix at or below the threshold, followed by the
first block that pushes past it. -/
theorem crossing_split :
    ∀ (B : List Block) (c : Nat), c < diffSum B →
      ∃ P bk S, B = P ++ bk :: S ∧ diffSum P ≤ c ∧
        c < diffSum P + bk.difficulty := by
  intro B
  induction B with
  | nil =>
    intro c h
    rw [diffSum_nil] at h
    omega
  | cons b rest ih =>
    intro c h
    by_cases hb : c < b.difficulty
    · refine ⟨[], b, rest, rfl, ?_, ?_⟩
      · rw [diffSum_nil]
        omega
      · rw [diffSum_nil]
        omega
    · push_neg at hb
      rw [diffSum_cons] at h
      obtain ⟨P, bk, S, hsplit, h3, h4⟩ := ih (c - b.difficulty) (by omega)
      refine ⟨b :: P, bk, S, by rw [List.cons_append, hsplit], ?_, ?_⟩
      · rw [diffSum_cons]
        omega
      · rw [diffSum_cons]
        omega

theorem linkedFrom_num_bounds :
    ∀ (P : List Block) (r : Block), linkedFrom r P = true →
      ∀ x ∈ P, r.number < x.number ∧ x.number ≤ r.number + P.length := by
  intro P
  induction P with
  | nil => intro r _ x hx; cases hx
  | cons b rest ih =>
    intro r h x hx
    obtain ⟨h1, h2, h3⟩ := linkedFrom_cons h
    rcases List.mem_cons.mp hx with he | hm
    · subst he
      rw [List.length_cons]
      omega
    · have := ih b h3 x hm
      rw [List.length_cons]
      omega

theorem linkedFrom_num_inj :
    ∀ (P : List Block) (r : Block), linkedFrom r P = true →
      ∀ x ∈ P, ∀ y ∈ P, x.number = y.number → x = y := by
  intro P
  induction P with
  | nil => intro r _ x hx; cases hx
  | cons b rest ih =>
    intro r h x hx y hy he
    obtain ⟨h1, h2, h3⟩ := linkedFrom_cons h
    have hbnd := linkedFrom_num_bounds rest b h3
    rcases List.mem_cons.mp hx with hxb | hxm <;>
      rcases List.mem_cons.mp hy with hyb | hym
    · rw [hxb, hyb]
    · exfalso
      have := (hbnd y hym).1
      rw [hxb] at he
      omega
    · exfalso
      have := (hbnd x hxm).1
      rw [hyb] at he
      omega
    · exact ih b h3 x hxm y hym he

theorem linkedFrom_getLastD_num :
    ∀ (P : List Block) (r : Block), linkedFrom r P = true →
      (P.getLastD r).number = r.number + P.length := by
  intro P
  induction P with
  | nil =>
    intro r _
    simp
  | cons b rest ih =>
    intro r h
    obtain ⟨h1, h2, h3⟩ := linkedFrom_cons h
    rw [List.getLastD_cons, ih b h3, List.length_cons]
    omega

/-- The ancestors of the tip of a stored, parent-linked branch: at the root
height the walk reaches the root, and strictly above it exactly the branch
blocks. -/
theorem branch_anc {s : ChainState} (hL : LinkInv s) :
    ∀ (P : List Block) (r : Block), r ∈ s.stored → (∀ x ∈ P, x ∈ s.stored) →
      linkedFrom r P = true →
      ∀ n, r.number ≤ n → n ≤ r.number + P.length →
        ∃ x, ancestorAt s ((P.getLastD r).number - n) (P.getLastD r) n = some x ∧
          x.number = n ∧ ((n = r.number ∧ x = r) ∨ x ∈ P) := by
  intro P
  induction P with
  | nil =>
    intro r hr _ _ n hn1 hn2
    have hn : n = r.number := by
      rw [List.length_nil] at hn2
      omega
    refine ⟨r, ?_, hn.symm, Or.inl ⟨hn, rfl⟩⟩
    show ancestorAt s (r.number - n) r n = some r
    exact anc_self hn.symm _
  | cons b rest ih =>
    intro r hr hstored hlink n hn1 hn2
    obtain ⟨hbp, hbn, hlink2⟩ := linkedFrom_cons hlink
    have hbs : b ∈ s.stored := hstored b (List.mem_cons_self _ _)
    have hrs : ∀ x ∈ rest, x ∈ s.stored :=
      fun x hx => hstored x (List.mem_cons_of_mem _ hx)
    rw [List.getLastD_cons]
    by_cases hcase : b.number ≤ n
    · obtain ⟨x, hx1, hx2, hx3⟩ := ih b hbs hrs hlink2 n hcase
        (by rw [List.length_cons] at hn2; omega)
      refine ⟨x, hx1, hx2, Or.inr ?_⟩
      rcases hx3 with ⟨hnb, hxb⟩ | hxm
      · rw [hxb]
        exact List.mem_cons_self _ _
      · exact List.mem_cons_of_mem _ hxm
    · have hn : n = r.number := by omega
      obtain ⟨y, hy1, hy2, hy3⟩ := ih b hbs hrs hlink2 b.number (le_refl _)
        (by omega)
      have hyb : y = b := by
        rcases hy3 with ⟨_, hyb⟩ | hym
        · exact hyb
        · exfalso
          have := (linkedFrom_num_bounds rest b hlink2 y hym).1
          omega
      rw [hyb] at hy1
      have htips : rest.getLastD b ∈ s.stored := by
        rcases List.mem_cons.mp (getLastD_mem rest b) with he | hm
        · rw [he]
          exact hbs
        · exact hrs _ hm
      have htipn : (rest.getLastD b).number = b.number + rest.length :=
        linkedFrom_getLastD_num rest b hlink2
      have hcomp := anc_compose hL ((rest.getLastD b).number - b.number)
        (rest.getLastD b) htips b.number b (by omega) rfl hy1 n (by omega)
      have hpr : parentOf s b = some r := by
        rw [parentOf, hbp]
        exact getBlock_of_mem hL.hash_uniq hr
      have hstep : ancestorAt s (b.number - n) b n = some r := by
        have hd : b.number - n = 1 := by omega
        rw [hd, anc_step hpr (by omega) 0]
        exact anc_self hn.symm 0
      refine ⟨r, ?_, hn.symm, Or.inl ⟨hn, rfl⟩⟩
      rw [hcomp]
      exact hstep

/-- Inserting a fresh, parent-linked, valid branch whose cumulative TD never
reaches the head's: every block is admitted as a side block — stored with its
TD, while head, height index, transaction index, receipts and pending are
untouched. -/
theorem insertSideChain {env : ChainEnv} :
    ∀ (P : List Block) (s : ChainState) (r : Block), Inv s → r ∈ s.stored →
      linkedFrom r P = true → freshChain s P = true → validChain env P = true →
      tdOf s r.hash + diffSum P ≤ tdOf s s.head.hash →
      (insertChain env s P).2.2 = none ∧
      (insertChain env s P).1.stored = P.reverse ++ s.stored ∧
      (∀ h, ¬ h ∈ P.map Block.hash → (insertChain env s P).1.td h = s.td h) ∧
      (insertChain env s P).1.td (P.getLastD r).hash =
        some (tdOf s r.hash + diffSum P) ∧
      (insertChain env s P).1.head = s.head ∧
      (insertChain env s P).1.canonical = s.canonical ∧
      (insertChain env s P).1.txLoc = s.txLoc ∧
      (insertChain env s P).1.receipts = s.receipts ∧
      (insertChain env s P).1.pending = s.pending := by
  intro P
  induction P with
  | nil =>
    intro s r hI hr _ _ _ _
    refine ⟨rfl, rfl, fun h _ => rfl, ?_, rfl, rfl, rfl, rfl, rfl⟩
    obtain ⟨t, ht⟩ := Option.isSome_iff_exists.mp (hI.td_def r hr)
    have htd : tdOf s r.hash = t := by
      show (s.td r.hash).getD 0 = t
      rw [ht]
      rfl
    show s.td r.hash = some (tdOf s r.hash + diffSum [])
    rw [diffSum_nil, Nat.add_zero, ht, htd]
  | cons b rest ih =>
    intro s r hI hr hlink hfresh hvalid hbound
    obtain ⟨hbp, hbn, hlink2⟩ := linkedFrom_cons hlink
    obtain ⟨hf1, hf2, hf3⟩ := freshChain_cons hfresh
    obtain ⟨hv1, hv2, hv3⟩ := validChain_cons hvalid
    have hkf : hasBlock s b.hash = false := hasBlock_false_of_fresh hf1
    have hpr : parentOf s b = some r := by
      rw [parentOf, hbp]
      exact getBlock_of_mem hI.toLinkInv.hash_uniq hr
    have hshne : s.head.hash ≠ b.hash := by
      intro he
      apply hf1
      rw [← he]
      exact List.mem_map_of_mem Block.hash hI.head_stored
    have hble : tdOf (storeBlock s b) b.hash ≤ tdOf (storeBlock s b) s.head.hash := by
      rw [tdOf_store_ne hshne, tdOf_store, if_pos rfl, hbp]
      rw [diffSum_cons] at hbound
      omega
    have hok : insertBlock env s b = .ok (storeBlock s b) :=
      insertBlock_side hkf hpr hbn hv1 hv2 hble
    have hIt : Inv (storeBlock s b) := insert_inv hI hok
    have hbt : b ∈ (storeBlock s b).stored := List.mem_cons_self _ _
    have hfrest : freshChain (storeBlock s b) rest = true :=
      freshChain_step rest s _ b rfl hf3 hf2
    have htd_b : (storeBlock s b).td b.hash = some (tdOf s r.hash + b.difficulty) := by
      rw [td_store, if_pos rfl, hbp]
    have hbound2 : tdOf (storeBlock s b) b.hash + diffSum rest ≤
        tdOf (storeBlock s b) (storeBlock s b).head.hash := by
      rw [storeBlock_head, tdOf_store_ne hshne, tdOf_store, if_pos rfl, hbp]
      rw [diffSum_cons] at hbound
      omega
    obtain ⟨ihe, ihst, ihtdo, ihtip, ihhead, ihcanon, ihtx, ihrec, ihpend⟩ :=
      ih (storeBlock s b) b hIt hbt hlink2 hfrest hv3 hbound2
    have hins : insertChain env s (b :: rest) =
        ((insertChain env (storeBlock s b) rest).1,
          (insertChain env (storeBlock s b) rest).2.1 + 1,
          (insertChain env (storeBlock s b) rest).2.2) := by
      simp only [insertChain, hok]
    refine ⟨?_, ?_, ?_, ?_, ?_, ?_, ?_, ?_, ?_⟩
    · rw [hins]
      exact ihe
    · rw [hins]
      show (insertChain env (storeBlock s b) rest).1.stored = _
      rw [ihst, storeBlock_stored, List.reverse_cons, List.append_assoc]
      rfl
    · intro h hmem
      rw [hins]
      show (insertChain env (storeBlock s b) rest).1.td h = s.td h
      simp only [List.map_cons, List.mem_cons] at hmem
      push_neg at hmem
      rw [ihtdo h hmem.2, td_store, if_neg hmem.1]
    · rw [hins]
      show (insertChain env (storeBlock s b) rest).1.td
        ((b :: rest).getLastD r).hash = _
      rw [List.getLastD_cons, diffSum_cons, ihtip, tdOf_store, if_pos rfl, hbp,
        Nat.add_assoc]
    · rw [hins]
      show (insertChain env (storeBlock s b) rest).1.head = _
      rw [ihhead, storeBlock_head]
    · rw [hins]
      show (insertChain env (storeBlock s b) rest).1.canonical = _
      rw [ihcanon, storeBlock_canonical]
    · rw [hins]
      show (insertChain env (storeBlock s b) rest).1.txLoc = _
      rw [ihtx, storeBlock_txLoc]
    · rw [hins]
      show (insertChain env (storeBlock s b) rest).1.receipts = _
      rw [ihrec, storeBlock_receipts]
    · rw [hins]
      show (insertChain env (storeBlock s b) rest).1.pending = _
      rw [ihpend, storeBlock_pending]

/-- Inserting a fresh, valid, positive-difficulty branch that extends the
current head: every block is admitted on the fast path — the head moves to
the branch tip, each block's transactions gain location entries and receipts
and leave pending, and everything else is preserved. -/
theorem insertExtChain {env : ChainEnv} :
    ∀ (A : List Block) (s : ChainState) (r : Block), Inv s → r = s.head →
      linkedFrom r A = true → freshChain s A = true →
      validChain env A = true → posDiff A = true →
      (insertChain env s A).2.2 = none ∧
      (insertChain env s A).1.head = A.getLastD r ∧
      (insertChain env s A).1.stored = A.reverse ++ s.stored ∧
      (∀ h, ¬ h ∈ A.map Block.hash → (insertChain env s A).1.td h = s.td h) ∧
      (A ≠ [] → (insertChain env s A).1.td (A.getLastD r).hash =
        some (tdOf s r.hash + diffSum A)) ∧
      (∀ t, (∀ a ∈ A, ¬ t ∈ a.txs) →
        (insertChain env s A).1.txLoc t = s.txLoc t ∧
        (insertChain env s A).1.receipts t = s.receipts t) ∧
      (∀ t, (∃ a ∈ A, t ∈ a.txs) →
        ((insertChain env s A).1.txLoc t).isSome = true ∧
        (insertChain env s A).1.receipts t = true) ∧
      (∀ t, t ∈ (insertChain env s A).1.pending ↔
        t ∈ s.pending ∧ ∀ a ∈ A, ¬ t ∈ a.txs) := by
  intro A
  induction A with
  | nil =>
    intro s r hI hr _ _ _ _
    refine ⟨rfl, hr.symm, rfl, fun h _ => rfl, fun h => absurd rfl h,
      fun t _ => ⟨rfl, rfl⟩, ?_, ?_⟩
    · intro t ht
      exact absurd ht (by simp)
    · intro t
      simp [insertChain]
  | cons b rest ih =>
    intro s r hI hr hlink hfresh hvalid hpos
    obtain ⟨hbp, hbn, hlink2⟩ := linkedFrom_cons hlink
    obtain ⟨hf1, hf2, hf3⟩ := freshChain_cons hfresh
    obtain ⟨hv1, hv2, hv3⟩ := validChain_cons hvalid
    obtain ⟨hd1, hd2⟩ := posDiff_cons hpos
    have hrs : r ∈ s.stored := by
      rw [hr]
      exact hI.head_stored
    have hkf : hasBlock s b.hash = false := hasBlock_false_of_fresh hf1
    have hpr : parentOf s b = some r := by
      rw [parentOf, hbp]
      exact getBlock_of_mem hI.toLinkInv.hash_uniq hrs
    have hshne : s.head.hash ≠ b.hash := by
      intro he
      apply hf1
      rw [← he]
      exact List.mem_map_of_mem Block.hash hI.head_stored
    have hgt : tdOf (storeBlock s b) s.head.hash < tdOf (storeBlock s b) b.hash := by
      rw [tdOf_store_ne hshne, tdOf_store, if_pos rfl, hbp, hr]
      omega
    have hph : b.parentHash = s.head.hash := by
      rw [hbp, hr]
    have hok : insertBlock env s b =
        .ok { attachBlock (storeBlock s b) b with head := b } :=
      insertBlock_ext hkf hpr hbn hv1 hv2 hgt hph
    have hex : ∃ t, insertBlock env s b = .ok t ∧
        t = { attachBlock (storeBlock s b) b with head := b } := ⟨_, hok, rfl⟩
    obtain ⟨w, hokw, hweq⟩ := hex
    have hwhead : w.head = b := by rw [hweq]
    have hwstored : w.stored = b :: s.stored := by
      rw [hweq]
      rfl
    have hwtd : w.td = (storeBlock s b).td := by
      rw [hweq]
      rfl
    have hwtxloc_not : ∀ t', ¬ t' ∈ b.txs → w.txLoc t' = s.txLoc t' := by
      intro t' ht'
      rw [hweq]
      show (attachBlock (storeBlock s b) b).txLoc t' = s.txLoc t'
      rw [attach_txLoc_of_not ht']
      rfl
    have hwtxloc_some : ∀ t', t' ∈ b.txs → (w.txLoc t').isSome = true := by
      intro t' ht'
      rw [hweq]
      exact attach_txLoc_isSome ht'
    have hwrec : ∀ t', w.receipts t' = if t' ∈ b.txs then true else s.receipts t' := by
      intro t'
      rw [hweq]
      rfl
    have hwpend : ∀ t', t' ∈ w.pending ↔ t' ∈ s.pending ∧ ¬ t' ∈ b.txs := by
      intro t'
      rw [hweq]
      show t' ∈ (attachBlock (storeBlock s b) b).pending ↔ _
      rw [attach_pending_mem]
      exact Iff.rfl
    have hfrest : freshChain w rest = true :=
      freshChain_step rest s w b (by rw [storedHashes, hwstored]; rfl) hf3 hf2
    obtain ⟨ihe, ihhead, ihst, ihtdo, ihtip, ihpres, ihsome, ihpend⟩ :=
      ih w b (insert_inv hI hokw) hwhead.symm hlink2 hfrest hv3 hd2
    have hins : insertChain env s (b :: rest) =
        ((insertChain env w rest).1, (insertChain env w rest).2.1 + 1,
          (insertChain env w rest).2.2) := by
      simp only [insertChain, hokw]
    refine ⟨?_, ?_, ?_, ?_, ?_, ?_, ?_, ?_⟩
    · rw [hins]
      exact ihe
    · rw [hins]
      show (insertChain env w rest).1.head = (b :: rest).getLastD r
      rw [ihhead, List.getLastD_cons]
    · rw [hins]
      show (insertChain env w rest).1.stored = (b :: rest).reverse ++ s.stored
      rw [ihst, hwstored, List.reverse_cons, List.append_assoc]
      rfl
    · intro h hmem
      rw [hins]
      show (insertChain env w rest).1.td h = s.td h
      simp only [List.map_cons, List.mem_cons] at hmem
      push_neg at hmem
      rw [ihtdo h hmem.2, hwtd, td_store, if_neg hmem.1]
    · intro _
      rw [hins]
      show (insertChain env w rest).1.td ((b :: rest).getLastD r).hash =
        some (tdOf s r.hash + diffSum (b :: rest))
      rw [List.getLastD_cons, diffSum_cons]
      cases hrest : rest with
      | nil =>
        show w.td b.hash = _
        rw [diffSum_nil, Nat.add_zero, hwtd, td_store, if_pos rfl, hbp]
      | cons c rest2 =>
        rw [← hrest]
        have hne : rest ≠ [] := by
          rw [hrest]
          exact List.cons_ne_nil _ _
        have hwb : w.td b.hash = some (tdOf s r.hash + b.difficulty) := by
          rw [hwtd, td_store, if_pos rfl, hbp]
        have hwtdOf : tdOf w b.hash = tdOf s r.hash + b.difficulty := by
          show (w.td b.hash).getD 0 = _
          rw [hwb]
          rfl
        rw [ihtip hne, hwtdOf, Nat.add_assoc]
    · intro t' ht'
      have htb := ht' b (List.mem_cons_self _ _)
      have htrest : ∀ a ∈ rest, ¬ t' ∈ a.txs :=
        fun a ha => ht' a (List.mem_cons_of_mem _ ha)
      obtain ⟨p1, p2⟩ := ihpres t' htrest
      rw [hins]
      constructor
      · show (insertChain env w rest).1.txLoc t' = s.txLoc t'
        rw [p1]
        exact hwtxloc_not t' htb
      · show (insertChain env w rest).1.receipts t' = s.receipts t'
        rw [p2, hwrec t', if_neg htb]
    · intro t' ht'
      rw [hins]
      by_cases hmr : ∃ a ∈ rest, t' ∈ a.txs
      · obtain ⟨q1, q2⟩ := ihsome t' hmr
        exact ⟨q1, q2⟩
      · have htb : t' ∈ b.txs := by
          obtain ⟨a, ha, hta⟩ := ht'
          rcases List.mem_cons.mp ha with he | hm
          · rw [he] at hta
            exact hta
          · exact absurd ⟨a, hm, hta⟩ hmr
        have hnr : ∀ a ∈ rest, ¬ t' ∈ a.txs := fun a ha hta => hmr ⟨a, ha, hta⟩
        obtain ⟨p1, p2⟩ := ihpres t' hnr
        constructor
        · show ((insertChain env w rest).1.txLoc t').isSome = true
          rw [p1]
          exact hwtxloc_some t' htb
        · show (insertChain env w rest).1.receipts t' = true
          rw [p2, hwrec t', if_pos htb]
    · intro t'
      rw [hins]
      show t' ∈ (insertChain env w rest).1.pending ↔
        t' ∈ s.pending ∧ ∀ a ∈ b :: rest, ¬ t' ∈ a.txs
      rw [ihpend t', hwpend t']
      constructor
      · rintro ⟨⟨hp, hnb⟩, hnr⟩
        refine ⟨hp, ?_⟩
        intro a ha
        rcases List.mem_cons.mp ha with he | hm
        · rw [he]
          exact hnb
        · exact hnr a hm
      · rintro ⟨hp, hall⟩
        exact ⟨⟨hp, hall b (List.mem_cons_self _ _)⟩,
          fun a ha => hall a (List.mem_cons_of_mem _ ha)⟩

/-- Fork walk between the tips of two stored, hash-disjoint branches rooted at
the same block: the meet is the common root, the detached side is exactly the
first branch and the attached side exactly the second. -/
theorem reorg_cross {u : ChainState} (hL : LinkInv u) {r : Block} (hr : r ∈ u.stored)
    (A P : List Block)
    (hAs : ∀ x ∈ A, x ∈ u.stored) (hPs : ∀ x ∈ P, x ∈ u.stored)
    (hlA : linkedFrom r A = true) (hlP : linkedFrom r P = true)
    (hdisj : ∀ x ∈ A, ∀ y ∈ P, x.hash ≠ y.hash)
    {fuel : Nat} (hfuel : (A.getLastD r).number + (P.getLastD r).number < fuel) :
    (∀ x, x ∈ (forkAncestor u fuel (A.getLastD r) (P.getLastD r)).1 ↔ x ∈ A) ∧
    (∀ x, x ∈ (forkAncestor u fuel (A.getLastD r) (P.getLastD r)).2 ↔ x ∈ P) := by
  have htAn : (A.getLastD r).number = r.number + A.length :=
    linkedFrom_getLastD_num A r hlA
  have htPn : (P.getLastD r).number = r.number + P.length :=
    linkedFrom_getLastD_num P r hlP
  have htAs : A.getLastD r ∈ u.stored := by
    rcases List.mem_cons.mp (getLastD_mem A r) with he | hm
    · rw [he]
      exact hr
    · exact hAs _ hm
  have htPs : P.getLastD r ∈ u.stored := by
    rcases List.mem_cons.mp (getLastD_mem P r) with he | hm
    · rw [he]
      exact hr
    · exact hPs _ hm
  obtain ⟨m, a, hm1, hm2, hancA, hancP, hfa, hmax⟩ :=
    forkChar hL fuel (A.getLastD r) (P.getLastD r) htAs htPs hfuel
  obtain ⟨xa, hxa1, hxa2, hxa3⟩ :=
    branch_anc hL A r hr hAs hlA r.number (le_refl _) (by omega)
  have hxar : xa = r := by
    rcases hxa3 with ⟨_, h⟩ | hmem
    · exact h
    · exfalso
      have := (linkedFrom_num_bounds A r hlA xa hmem).1
      omega
  rw [hxar] at hxa1
  obtain ⟨xp, hxp1, hxp2, hxp3⟩ :=
    branch_anc hL P r hr hPs hlP r.number (le_refl _) (by omega)
  have hxpr : xp = r := by
    rcases hxp3 with ⟨_, h⟩ | hmem
    · exact h
    · exfalso
      have := (linkedFrom_num_bounds P r hlP xp hmem).1
      omega
  rw [hxpr] at hxp1
  have hmge : r.number ≤ m := by
    by_contra hlt
    push_neg at hlt
    exact hmax r.number hlt (by omega) (by omega) (by rw [hxa1, hxp1])
  have hmle : m ≤ r.number := by
    by_contra hlt
    push_neg at hlt
    obtain ⟨ya, hya1, hya2, hya3⟩ :=
      branch_anc hL A r hr hAs hlA m (by omega) (by omega)
    obtain ⟨yp, hyp1, hyp2, hyp3⟩ :=
      branch_anc hL P r hr hPs hlP m (by omega) (by omega)
    have hyaA : ya ∈ A := by
      rcases hya3 with ⟨he, _⟩ | h
      · omega
      · exact h
    have hypP : yp ∈ P := by
      rcases hyp3 with ⟨he, _⟩ | h
      · omega
      · exact h
    have h1 : a = ya := by
      rw [hancA] at hya1
      exact Option.some.inj hya1
    have h2 : a = yp := by
      rw [hancP] at hyp1
      exact Option.some.inj hyp1
    apply hdisj ya hyaA yp hypP
    rw [← h1, ← h2]
  have hmr : m = r.number := le_antisymm hmle hmge
  subst hmr
  rw [hfa]
  constructor
  · intro x
    show x ∈ chainAbove u (A.getLastD r).number (A.getLastD r) r.number ↔ x ∈ A
    rw [chainAbove_mem hL ((A.getLastD r).number - r.number) (A.getLastD r) htAs
      r.number (by omega) rfl (A.getLastD r).number (by omega) x]
    constructor
    · rintro ⟨hx1, hx2, hx3⟩
      obtain ⟨y, hy1, hy2, hy3⟩ :=
        branch_anc hL A r hr hAs hlA x.number (by omega) (by omega)
      have hxy : x = y := by
        rw [hx3] at hy1
        exact Option.some.inj hy1
      have hyA : y ∈ A := by
        rcases hy3 with ⟨he, _⟩ | h
        · omega
        · exact h
      rw [hxy]
      exact hyA
    · intro hxA
      have hbnd := linkedFrom_num_bounds A r hlA x hxA
      refine ⟨hbnd.1, by omega, ?_⟩
      obtain ⟨y, hy1, hy2, hy3⟩ :=
        branch_anc hL A r hr hAs hlA x.number (by omega) (by omega)
      have hyA : y ∈ A := by
        rcases hy3 with ⟨he, _⟩ | h
        · omega
        · exact h
      have hxy : y = x := linkedFrom_num_inj A r hlA y hyA x hxA hy2
      rw [hy1, hxy]
  · intro x
    show x ∈ chainAbove u (P.getLastD r).number (P.getLastD r) r.number ↔ x ∈ P
    rw [chainAbove_mem hL ((P.getLastD r).number - r.number) (P.getLastD r) htPs
      r.number (by omega) rfl (P.getLastD r).number (by omega) x]
    constructor
    · rintro ⟨hx1, hx2, hx3⟩
      obtain ⟨y, hy1, hy2, hy3⟩ :=
        branch_anc hL P r hr hPs hlP x.number (by omega) (by omega)
      have hxy : x = y := by
        rw [hx3] at hy1
        exact Option.some.inj hy1
      have hyP : y ∈ P := by
        rcases hy3 with ⟨he, _⟩ | h
        · omega
        · exact h
      rw [hxy]
      exact hyP
    · intro hxP
      have hbnd := linkedFrom_num_bounds P r hlP x hxP
      refine ⟨hbnd.1, by omega, ?_⟩
      obtain ⟨y, hy1, hy2, hy3⟩ :=
        branch_anc hL P r hr hPs hlP x.number (by omega) (by omega)
      have hyP : y ∈ P := by
        rcases hy3 with ⟨he, _⟩ | h
        · omega
        · exact h
      have hxy : y = x := linkedFrom_num_inj P r hlP y hyP x hxP hy2
      rw [hy1, hxy]

theorem getLastD_mem_of_ne_nil {α : Type} :
    ∀ (l : List α), l ≠ [] → ∀ d : α, l.getLastD d ∈ l := by
  intro l
  induction l with
  | nil => intro h; exact absurd rfl h
  | cons a l ih =>
    intro _ d
    rw [List.getLastD_cons]
    cases hl : l with
    | nil =>
      show a ∈ [a]
      exact List.mem_cons_self _ _
    | cons b l2 =>
      have hne : l ≠ [] := by
        rw [hl]
        exact List.cons_ne_nil _ _
      rw [← hl]
      exact List.mem_cons_of_mem _ (ih hne a)

/-- Transaction bookkeeping across one reorganization, given a membership
description of the fork walk: transactions of detached blocks that no attached
block carries lose their location entries and receipts and are resubmitted as
pending; transactions of attached blocks gain location entries and receipts
and leave pending. -/
theorem reorg_tx {u : ChainState} {b pb : Block} (hp : parentOf u b = some pb)
    (D T : List Block)
    (hD : ∀ x, x ∈ (forkAncestor u (u.head.number + pb.number + 1) u.head pb).1 ↔
      x ∈ D)
    (hT : ∀ x, x ∈ (forkAncestor u (u.head.number + pb.number + 1) u.head pb).2 ↔
      x ∈ T) :
    (∀ t, (∀ x ∈ T, ¬ t ∈ x.txs) → (∃ x ∈ D, t ∈ x.txs) →
      (reorg u b).txLoc t = none ∧ (reorg u b).receipts t = false ∧
      t ∈ (reorg u b).pending) ∧
    (∀ t, (∃ x ∈ T, t ∈ x.txs) →
      ((reorg u b).txLoc t).isSome = true ∧ (reorg u b).receipts t = true ∧
      ¬ t ∈ (reorg u b).pending) := by
  obtain ⟨DD, TT, hfa⟩ : ∃ DD TT,
      forkAncestor u (u.head.number + pb.number + 1) u.head pb = (DD, TT) :=
    ⟨_, _, rfl⟩
  have hD2 : ∀ x, x ∈ DD ↔ x ∈ D := by
    intro x
    rw [← hD x, hfa]
  have hT2 : ∀ x, x ∈ TT ↔ x ∈ T := by
    intro x
    rw [← hT x, hfa]
  have hre : reorg u b =
      TT.reverse.foldl attachBlock
        { DD.foldl detachBlock u with
          canonical := fun n =>
            if DD.any (fun d => d.number == n) then none
            else (DD.foldl detachBlock u).canonical n } := by
    unfold reorg
    rw [hp]
    dsimp only
    rw [hfa]
  constructor
  · intro t hTnone hDsome
    have hTrev : ∀ x ∈ TT.reverse, ¬ t ∈ x.txs := by
      intro x hx
      exact hTnone x ((hT2 x).mp (List.mem_reverse.mp hx))
    have hDD : ∃ x ∈ DD, t ∈ x.txs := by
      obtain ⟨x, hx, htx⟩ := hDsome
      exact ⟨x, (hD2 x).mpr hx, htx⟩
    refine ⟨?_, ?_, ?_⟩
    · rw [hre, foldl_attach_txLoc_not _ _ _ hTrev]
      show (DD.foldl detachBlock u).txLoc t = none
      rw [foldl_detach_txLoc, if_pos hDD]
    · rw [hre, foldl_attach_receipts_not _ _ _ hTrev]
      show (DD.foldl detachBlock u).receipts t = false
      rw [foldl_detach_receipts, if_pos hDD]
    · rw [hre, foldl_attach_pending_mem]
      refine ⟨?_, hTrev⟩
      show t ∈ (DD.foldl detachBlock u).pending
      rw [foldl_detach_pending_mem]
      exact Or.inr hDD
  · intro t hTsome
    obtain ⟨x, hx, htx⟩ := hTsome
    have hxrev : x ∈ TT.reverse := List.mem_reverse.mpr ((hT2 x).mpr hx)
    refine ⟨?_, ?_, ?_⟩
    · rw [hre]
      exact foldl_attach_txLoc_isSome _ _ _ ⟨x, hxrev, htx⟩
    · rw [hre]
      exact foldl_attach_receipts_of_mem _ _ _ ⟨x, hxrev, htx⟩
    · rw [hre, foldl_attach_pending_mem]
      rintro ⟨_, hall⟩
      exact hall x hxrev htx

/-- C6: transaction-location entries and receipts track canonicity across a
reorg.  Branch A extends the head and becomes canonical; a hash-disjoint,
strictly heavier branch B from the same head is then inserted, triggering a
reorganization.  Afterwards every transaction of A appearing in no block of B
has no location entry, no receipt, and is pending again, while every
transaction of B — including those shared with A — has a location entry and a
receipt and is not pending. -/
theorem c6_reorg_tx_index (env : ChainEnv) (s : ChainState) (A B : List Block)
    (hI : Inv s) (hAne : A ≠ [])
    (hlA : linkedFrom s.head A = true) (hlB : linkedFrom s.head B = true)
    (hfA : freshChain s A = true) (hfB : freshChain s B = true)
    (hdisj : hashDisjoint A B = true)
    (hvA : validChain env A = true) (hvB : validChain env B = true)
    (hpA : posDiff A = true) (hpB : posDiff B = true)
    (hheavy : diffSum A < diffSum B) :
    (∀ t, (∃ a ∈ A, t ∈ a.txs) → (∀ b ∈ B, ¬ t ∈ b.txs) →
      (insertChain env (insertChain env s A).1 B).1.txLoc t = none ∧
      (insertChain env (insertChain env s A).1 B).1.receipts t = false ∧
      t ∈ (insertChain env (insertChain env s A).1 B).1.pending) ∧
    (∀ t, (∃ b ∈ B, t ∈ b.txs) →
      ((insertChain env (insertChain env s A).1 B).1.txLoc t).isSome = true ∧
      (insertChain env (insertChain env s A).1 B).1.receipts t = true ∧
      ¬ t ∈ (insertChain env (insertChain env s A).1 B).1.pending) := by
  have hdisj2 := hashDisjoint_spec hdisj
  obtain ⟨e1, h1head, h1st, h1tdo, h1tip, h1pres, h1some, h1pend⟩ :=
    insertExtChain A s s.head hI rfl hlA hfA hvA hpA
  obtain ⟨s1, hs1⟩ : ∃ s1, (insertChain env s A).1 = s1 := ⟨_, rfl⟩
  rw [hs1] at h1head h1st h1tdo h1tip h1pres h1some h1pend
  have hI1 : Inv s1 := by
    rw [← hs1]
    exact insertChain_inv hI A
  rw [hs1]
  obtain ⟨P, bk, S, hBsplit, hPle, hPgt⟩ := crossing_split B (diffSum A) hheavy
  subst hBsplit
  obtain ⟨hlP, hlQ⟩ := linkedFrom_append P (bk :: S) hlB
  obtain ⟨hbkp, hbkn, hlS⟩ := linkedFrom_cons hlQ
  obtain ⟨hfP, hfQ, hdQP⟩ := freshChain_parts P (bk :: S) hfB
  obtain ⟨hfbk1, hfbk2, hfS⟩ := freshChain_cons hfQ
  obtain ⟨hvP, hvQ⟩ := validChain_parts P (bk :: S) hvB
  obtain ⟨hvbk1, hvbk2, hvS⟩ := validChain_cons hvQ
  obtain ⟨hpP, hpQ⟩ := posDiff_parts P (bk :: S) hpB
  obtain ⟨hdbk, hpS⟩ := posDiff_cons hpQ
  have hAP : ∀ x ∈ A, ∀ y ∈ P, x.hash ≠ y.hash := by
    intro x hx y hy he
    apply hdisj2 x.hash (List.mem_map_of_mem Block.hash hx)
    rw [he]
    exact List.mem_map_of_mem Block.hash (List.mem_append.mpr (Or.inl hy))
  have hAbk : ∀ x ∈ A, x.hash ≠ bk.hash := by
    intro x hx he
    apply hdisj2 x.hash (List.mem_map_of_mem Block.hash hx)
    rw [he]
    exact List.mem_map_of_mem Block.hash
      (List.mem_append.mpr (Or.inr (List.mem_cons_self _ _)))
  have hAS : ∀ x ∈ A, ∀ y ∈ S, x.hash ≠ y.hash := by
    intro x hx y hy he
    apply hdisj2 x.hash (List.mem_map_of_mem Block.hash hx)
    rw [he]
    exact List.mem_map_of_mem Block.hash
      (List.mem_append.mpr (Or.inr (List.mem_cons_of_mem _ hy)))
  have htipA_mem : A.getLastD s.head ∈ A := getLastD_mem_of_ne_nil A hAne s.head
  have htipA_fresh : ¬ (A.getLastD s.head).hash ∈ storedHashes s :=
    freshChain_all A hfA _ htipA_mem
  have hhead_s1 : s.head ∈ s1.stored := by
    rw [h1st]
    exact List.mem_append.mpr (Or.inr hI.head_stored)
  have hfP1 : freshChain s1 P = true := by
    refine freshChain_transport h1st P hfP ?_
    intro x hx hm
    have hmA : x.hash ∈ A.map Block.hash := by
      simpa [List.map_reverse] using hm
    obtain ⟨y, hy, hyh⟩ := List.mem_map.mp hmA
    exact hAP y hy x hx hyh
  have htd1_head : tdOf s1 s.head.hash = tdOf s s.head.hash := by
    show (s1.td s.head.hash).getD 0 = (s.td s.head.hash).getD 0
    rw [h1tdo s.head.hash (stored_not_in_fresh hfA
      (List.mem_map_of_mem Block.hash hI.head_stored))]
  have htd1_tipA : tdOf s1 (A.getLastD s.head).hash =
      tdOf s s.head.hash + diffSum A := by
    show (s1.td (A.getLastD s.head).hash).getD 0 = _
    rw [h1tip hAne]
    rfl
  have hbound : tdOf s1 s.head.hash + diffSum P ≤ tdOf s1 s1.head.hash := by
    rw [h1head, htd1_head, htd1_tipA]
    omega
  obtain ⟨e2, h2st, h2tdo, h2tip, h2head, h2canon, h2tx, h2rec, h2pend⟩ :=
    insertSideChain P s1 s.head hI1 hhead_s1 hlP hfP1 hvP hbound
  obtain ⟨s2, hs2⟩ : ∃ s2, (insertChain env s1 P).1 = s2 := ⟨_, rfl⟩
  rw [hs2] at h2st h2tdo h2tip h2head h2canon h2tx h2rec h2pend
  have hI2 : Inv s2 := by
    rw [← hs2]
    exact insertChain_inv hI1 P
  have hstored2 : s2.stored = P.reverse ++ (A.reverse ++ s.stored) := by
    rw [h2st, h1st]
  have hmemA2 : ∀ x ∈ A, x ∈ s2.stored := by
    intro x hx
    rw [hstored2]
    exact List.mem_append.mpr (Or.inr (List.mem_append.mpr
      (Or.inl (List.mem_reverse.mpr hx))))
  have hmemP2 : ∀ x ∈ P, x ∈ s2.stored := by
    intro x hx
    rw [hstored2]
    exact List.mem_append.mpr (Or.inl (List.mem_reverse.mpr hx))
  have hhead_s2 : s.head ∈ s2.stored := by
    rw [hstored2]
    exact List.mem_append.mpr (Or.inr (List.mem_append.mpr (Or.inr hI.head_stored)))
  have htipP_mem : P.getLastD s.head ∈ s2.stored := by
    rcases List.mem_cons.mp (getLastD_mem P s.head) with he | hm
    · rw [he]
      exact hhead_s2
    · exact hmemP2 _ hm
  have hfresh_bk : ¬ bk.hash ∈ storedHashes s2 := by
    rw [storedHashes, hstored2, List.map_append]
    intro hm
    rcases List.mem_append.mp hm with hm1 | hm1
    · have hmP : bk.hash ∈ P.map Block.hash := by
        simpa [List.map_reverse] using hm1
      exact hdQP bk (List.mem_cons_self _ _) hmP
    · rw [List.map_append] at hm1
      rcases List.mem_append.mp hm1 with hm2 | hm2
      · have hmA : bk.hash ∈ A.map Block.hash := by
          simpa [List.map_reverse] using hm2
        obtain ⟨y, hy, hyh⟩ := List.mem_map.mp hmA
        exact hAbk y hy hyh
      · exact hfbk1 hm2
  have hkf2 : hasBlock s2 bk.hash = false := hasBlock_false_of_fresh hfresh_bk
  have hpr2 : parentOf s2 bk = some (P.getLastD s.head) := by
    rw [parentOf, hbkp]
    exact getBlock_of_mem hI2.toLinkInv.hash_uniq htipP_mem
  have htipA_notP : ¬ (A.getLastD s.head).hash ∈ P.map Block.hash := by
    intro hm
    obtain ⟨y, hy, hyh⟩ := List.mem_map.mp hm
    exact hAP _ htipA_mem y hy hyh.symm
  have htd2_tipA : tdOf s2 (A.getLastD s.head).hash =
      tdOf s s.head.hash + diffSum A := by
    show (s2.td (A.getLastD s.head).hash).getD 0 = _
    rw [h2tdo _ htipA_notP]
    exact htd1_tipA
  have htd2_tipP : tdOf s2 (P.getLastD s.head).hash =
      tdOf s s.head.hash + diffSum P := by
    show (s2.td (P.getLastD s.head).hash).getD 0 = _
    rw [h2tip]
    show tdOf s1 s.head.hash + diffSum P = _
    rw [htd1_head]
  have hhead2 : s2.head = A.getLastD s.head := by
    rw [h2head, h1head]
  have htipA_ne_bk : (A.getLastD s.head).hash ≠ bk.hash := hAbk _ htipA_mem
  have hgt2 : tdOf (storeBlock s2 bk) s2.head.hash <
      tdOf (storeBlock s2 bk) bk.hash := by
    rw [hhead2, tdOf_store_ne htipA_ne_bk, tdOf_store, if_pos rfl, hbkp,
      htd2_tipA, htd2_tipP]
    omega
  have htipP_ne_tipA : (P.getLastD s.head).hash ≠ (A.getLastD s.head).hash := by
    rcases List.mem_cons.mp (getLastD_mem P s.head) with he | hm
    · rw [he]
      intro hee
      apply htipA_fresh
      rw [← hee]
      exact List.mem_map_of_mem Block.hash hI.head_stored
    · intro hee
      exact hAP _ htipA_mem _ hm hee.symm
  have hph2 : bk.parentHash ≠ s2.head.hash := by
    rw [hbkp, hhead2]
    exact htipP_ne_tipA
  have hok2 : insertBlock env s2 bk =
      .ok { attachBlock (reorg (storeBlock s2 bk) bk) bk with head := bk } :=
    insertBlock_reorg hkf2 hpr2 hbkn hvbk1 hvbk2 hgt2 hph2
  obtain ⟨w, hokw, hweq⟩ : ∃ w, insertBlock env s2 bk = .ok w ∧
      w = { attachBlock (reorg (storeBlock s2 bk) bk) bk with head := bk } :=
    ⟨_, hok2, rfl⟩
  have hIw : Inv w := insert_inv hI2 hokw
  have hwhead : w.head = bk := by
    rw [hweq]
  have hbp_ne : bk.hash ≠ bk.parentHash := by
    intro he
    apply hfresh_bk
    rw [he]
    exact mem_storedHashes_of_get hpr2
  have hpu : parentOf (storeBlock s2 bk) bk = some (P.getLastD s.head) := by
    rw [parentOf, getBlock_store_ne hbp_ne]
    exact hpr2
  have hL_u : LinkInv (storeBlock s2 bk) :=
    linkinv_store hI2.toLinkInv hkf2 hpr2 hbkn
  have hhead_u : (storeBlock s2 bk).head = A.getLastD s.head := by
    rw [storeBlock_head, hhead2]
  have hmem_r_u : s.head ∈ (storeBlock s2 bk).stored := by
    rw [storeBlock_stored]
    exact List.mem_cons_of_mem _ hhead_s2
  have hmemA_u : ∀ x ∈ A, x ∈ (storeBlock s2 bk).stored := by
    intro x hx
    rw [storeBlock_stored]
    exact List.mem_cons_of_mem _ (hmemA2 x hx)
  have hmemP_u : ∀ x ∈ P, x ∈ (storeBlock s2 bk).stored := by
    intro x hx
    rw [storeBlock_stored]
    exact List.mem_cons_of_mem _ (hmemP2 x hx)
  have hfuel : (A.getLastD s.head).number + (P.getLastD s.head).number <
      (storeBlock s2 bk).head.number + (P.getLastD s.head).number + 1 := by
    rw [hhead_u]
    omega
  obtain ⟨hDiff, hTiff⟩ :=
    reorg_cross hL_u hmem_r_u A P hmemA_u hmemP_u hlA hlP hAP hfuel
  rw [← hhead_u] at hDiff hTiff
  obtain ⟨hreD, hreT⟩ := reorg_tx hpu A P hDiff hTiff
  have hwtx_not : ∀ t, ¬ t ∈ bk.txs →
      w.txLoc t = (reorg (storeBlock s2 bk) bk).txLoc t := by
    intro t ht
    rw [hweq]
    show (attachBlock (reorg (storeBlock s2 bk) bk) bk).txLoc t = _
    rw [attach_txLoc_of_not ht]
  have hwtx_some : ∀ t, t ∈ bk.txs → (w.txLoc t).isSome = true := by
    intro t ht
    rw [hweq]
    exact attach_txLoc_isSome ht
  have hwtx_mono : ∀ t, ((reorg (storeBlock s2 bk) bk).txLoc t).isSome = true →
      (w.txLoc t).isSome = true := by
    intro t ht
    rw [hweq]
    exact attach_txLoc_isSome_mono ht
  have hwrec : ∀ t, w.receipts t =
      if t ∈ bk.txs then true else (reorg (storeBlock s2 bk) bk).receipts t := by
    intro t
    rw [hweq]
    rfl
  have hwpend : ∀ t, t ∈ w.pending ↔
      t ∈ (reorg (storeBlock s2 bk) bk).pending ∧ ¬ t ∈ bk.txs := by
    intro t
    rw [hweq]
    show t ∈ (attachBlock (reorg (storeBlock s2 bk) bk) bk).pending ↔ _
    rw [attach_pending_mem]
  have hwstored : w.stored = (bk :: (P.reverse ++ A.reverse)) ++ s.stored := by
    rw [hweq]
    show (attachBlock (reorg (storeBlock s2 bk) bk) bk).stored = _
    rw [attachBlock_stored, reorg_stored, storeBlock_stored, hstored2,
      List.cons_append, List.append_assoc]
  have hfSw : freshChain w S = true := by
    refine freshChain_transport hwstored S hfS ?_
    intro x hx hm
    simp only [List.map_cons, List.map_append, List.mem_cons,
      List.mem_append] at hm
    rcases hm with he | hm2 | hm2
    · exact hfbk2 (he ▸ List.mem_map_of_mem Block.hash hx)
    · have hmP : x.hash ∈ P.map Block.hash := by
        simpa [List.map_reverse] using hm2
      exact hdQP x (List.mem_cons_of_mem _ hx) hmP
    · have hmA : x.hash ∈ A.map Block.hash := by
        simpa [List.map_reverse] using hm2
      obtain ⟨y, hy, hyh⟩ := List.mem_map.mp hmA
      exact hAS y hy x hx hyh
  obtain ⟨e3, h3head, h3st, h3tdo, h3tip, h3pres, h3some, h3pend⟩ :=
    insertExtChain S w bk hIw hwhead.symm hlS hfSw hvS hpS
  have hins2 : insertChain env s2 (bk :: S) =
      ((insertChain env w S).1, (insertChain env w S).2.1 + 1,
        (insertChain env w S).2.2) := by
    simp only [insertChain, hokw]
  have hfinal : (insertChain env s1 (P ++ bk :: S)).1 = (insertChain env w S).1 := by
    rw [insertChain_append env P (bk :: S) s1 e2]
    show (insertChain env (insertChain env s1 P).1 (bk :: S)).1 = _
    rw [hs2, hins2]
  rw [hfinal]
  constructor
  · intro t htA htB
    have htP : ∀ x ∈ P, ¬ t ∈ x.txs :=
      fun x hx => htB x (List.mem_append.mpr (Or.inl hx))
    have htbk : ¬ t ∈ bk.txs :=
      htB bk (List.mem_append.mpr (Or.inr (List.mem_cons_self _ _)))
    have htS : ∀ x ∈ S, ¬ t ∈ x.txs :=
      fun x hx => htB x (List.mem_append.mpr (Or.inr (List.mem_cons_of_mem _ hx)))
    obtain ⟨hrtx, hrrec, hrpend⟩ := hreD t htP htA
    obtain ⟨p3tx, p3rec⟩ := h3pres t htS
    refine ⟨?_, ?_, ?_⟩
    · rw [p3tx, hwtx_not t htbk, hrtx]
    · rw [p3rec, hwrec t, if_neg htbk, hrrec]
    · rw [h3pend t]
      exact ⟨(hwpend t).mpr ⟨hrpend, htbk⟩, htS⟩
  · intro t ht
    by_cases hSx : ∃ x ∈ S, t ∈ x.txs
    · obtain ⟨q1, q2⟩ := h3some t hSx
      refine ⟨q1, q2, ?_⟩
      intro hmem
      obtain ⟨x, hx, htx⟩ := hSx
      exact ((h3pend t).mp hmem).2 x hx htx
    · have hSnone : ∀ x ∈ S, ¬ t ∈ x.txs := fun x hx htx => hSx ⟨x, hx, htx⟩
      obtain ⟨p3tx, p3rec⟩ := h3pres t hSnone
      have hPbk : t ∈ bk.txs ∨ ∃ x ∈ P, t ∈ x.txs := by
        obtain ⟨b, hb, htb⟩ := ht
        rcases List.mem_append.mp hb with hbP | hbQ
        · exact Or.inr ⟨b, hbP, htb⟩
        · rcases List.mem_cons.mp hbQ with he | hmS
          · rw [he] at htb
            exact Or.inl htb
          · exact absurd ⟨b, hmS, htb⟩ hSx
      rcases hPbk with htbk | htPk
      · refine ⟨?_, ?_, ?_⟩
        · rw [p3tx]
          exact hwtx_some t htbk
        · rw [p3rec, hwrec t, if_pos htbk]
        · intro hmem
          exact ((hwpend t).mp ((h3pend t).mp hmem).1).2 htbk
      · obtain ⟨hrtx, hrrec, hrpend⟩ := hreT t htPk
        refine ⟨?_, ?_, ?_⟩
        · rw [p3tx]
          exact hwtx_mono t hrtx
        · rw [p3rec, hwrec t]
          by_cases hbk : t ∈ bk.txs
          · rw [if_pos hbk]
          · rw [if_neg hbk]
            exact hrrec
        · intro hmem
          exact hrpend ((hwpend t).mp ((h3pend t).mp hmem).1).1

theorem c6_witness :
    (insertChain defEnv (insertChain defEnv (mkChainState gBlock) cB).1 cA).1.txLoc
      201 = none ∧
    (insertChain defEnv (insertChain defEnv (mkChainState gBlock) cB).1 cA).1.receipts
      201 = false ∧
    201 ∈ (insertChain defEnv (insertChain defEnv
      (mkChainState gBlock) cB).1 cA).1.pending ∧
    ((insertChain defEnv (insertChain defEnv (mkChainState gBlock) cB).1 cA).1.txLoc
      150).isSome = true ∧
    (insertChain defEnv (insertChain defEnv (mkChainState gBlock) cB).1 cA).1.receipts
      150 = true ∧
    ¬ 150 ∈ (insertChain defEnv (insertChain defEnv
      (mkChainState gBlock) cB).1 cA).1.pending := by
  obtain ⟨h1, h2⟩ := c6_reorg_tx_index defEnv (mkChainState gBlock) cB cA
    (mkChainState_inv rfl) (by decide) (by decide) (by decide) (by decide)
    (by decide) (by decide) (by decide) (by decide) (by decide) (by decide)
    (by decide)
  obtain ⟨a1, a2, a3⟩ := h1 201 (by decide) (by decide)
  obtain ⟨b1, b2, b3⟩ := h2 150 (by decide)
  exact ⟨a1, a2, a3, b1, b2, b3⟩
